import Mathlib

/-!
Verification development for the PEMJKSGenBot keystore/certificate bot
(`src/main.py`).

Strings are modelled as `List Char`.  Python's `str` operations that the
program uses (`strip`, `replace`, `splitlines`, `split("=", 1)`, slicing of
split results) are embedded as executable functions whose behaviour on the
inputs in question matches CPython's (for `strip`/`splitlines` we cover the
ASCII whitespace / line-break characters, which is what the program's data
contains).

The filesystem effects of `_process_request` are embedded as explicit state
passing over a small `FS` record (a list of `(path, tag)` entries; the `tag`
identifies a file's content so that data destruction is observable).
External `keytool` invocations are modelled by success flags, since the only
thing the code observes about them is the exit status, plus the captured
stdout of `keytool -list -v`, which is passed in as a string.
-/

/-- Abbreviation: a Python string, as a list of characters. -/
abbrev Str := List Char

/-! ## Python string primitives -/

/-- The ASCII whitespace characters Python's `str.strip()` removes
(`string.whitespace`).  The program only strips command output, captions and
package names, where these are the whitespace characters that occur. -/
def isPySpace (c : Char) : Bool :=
  c == ' ' || c == '\t' || c == '\n' || c == '\r' || c == '\x0b' || c == '\x0c'

/-- Left part of Python `str.strip()`. -/
def lstrip (s : Str) : Str := s.dropWhile isPySpace

/-- Right part of Python `str.strip()`. -/
def rstrip (s : Str) : Str := (s.reverse.dropWhile isPySpace).reverse

/-- Python `s.strip()`. -/
def pyStrip (s : Str) : Str := rstrip (lstrip s)

/-- Python `s.replace(pat, rep)` for a single-character pattern `pat`:
every occurrence of `pat` is replaced by `rep`. -/
def pyReplace1 (pat : Char) (rep : Str) : Str → Str
  | [] => []
  | c :: rest => (if c = pat then rep else [c]) ++ pyReplace1 pat rep rest

/-- Python `s.replace(String.mk [a, b], r)` for a two-character pattern:
scan left to right; when the next two characters are `a, b`, emit `r` and
skip both; otherwise emit one character and continue. -/
def pyReplace2 (a b : Char) (r : Str) : Str → Str
  | x :: y :: rest =>
      if x = a ∧ y = b then r ++ pyReplace2 a b r rest
      else x :: pyReplace2 a b r (y :: rest)
  | s => s

/-- Python `str.splitlines()` (covering the `\n`, `\r\n` and `\r` line
breaks that occur in the program's data): the empty string gives no lines,
and a trailing line break does not produce a trailing empty line. -/
def splitlinesGo (cur : Str) : Str → List Str
  | [] => [cur]
  | '\r' :: '\n' :: rest =>
      cur :: (if rest = [] then [] else splitlinesGo [] rest)
  | '\r' :: rest =>
      cur :: (if rest = [] then [] else splitlinesGo [] rest)
  | '\n' :: rest =>
      cur :: (if rest = [] then [] else splitlinesGo [] rest)
  | c :: rest => splitlinesGo (cur ++ [c]) rest

/-- Python `s.splitlines()`. -/
def pySplitlines (s : Str) : List Str :=
  match s with
  | [] => []
  | _ => splitlinesGo [] s

/-- Python `item.split("=", 1)` when `"=" in item`: `some (key, value)`
split at the first `'='`; `none` when the string contains no `'='`. -/
def splitEq1 : Str → Option (Str × Str)
  | [] => none
  | c :: rest =>
      if c = '=' then some ([], rest)
      else
        match splitEq1 rest with
        | some (k, v) => some (c :: k, v)
        | none => none

/-- Python `line.split(pat, 1)[1]`: the remainder of `line` after the first
occurrence of `pat`; `none` when `pat` does not occur. -/
def splitAfter (pat : Str) : Str → Option Str
  | [] => if pat.isPrefixOf [] then some [] else none
  | c :: rest =>
      if pat.isPrefixOf (c :: rest) then some ((c :: rest).drop pat.length)
      else splitAfter pat rest

/-- Python truthiness of an `Optional[str]` followed by `or dflt`:
`x or dflt` is `dflt` when `x` is `None` or empty. -/
def pyOrS (a : Option Str) (dflt : Str) : Str :=
  match a with
  | some v => if v = [] then dflt else v
  | none => dflt

/-! ## Data model (`DNameInfo`, `FileRequest` from `main.py`) -/

/-- The `DNameInfo` dataclass: the seven identity fields. -/
structure DNameInfo where
  first_name : Str
  last_name : Str
  organization_unit : Str
  organization : Str
  city : Str
  state : Str
  country_code : Str
deriving DecidableEq, Repr

/-- The all-empty identity, substituted by `_format_info` when no identity
is available. -/
def emptyDName : DNameInfo := ⟨[], [], [], [], [], [], []⟩

/-! ## DN codec: `_random_dname` (encode) -/

/-- The `esc` helper inside `_random_dname`:
`value.replace("\\", "\\\\").replace(",", "\\,")` — first every backslash
becomes a double backslash, then every comma becomes backslash-comma. -/
def escDn (v : Str) : Str :=
  pyReplace1 ',' ['\\', ','] (pyReplace1 '\\' ['\\', '\\'] v)

/-- The common name assembled by `_random_dname`:
`f"{dname_info.first_name} {dname_info.last_name}"`. -/
def commonName (d : DNameInfo) : Str :=
  d.first_name ++ ' ' :: d.last_name

/-- `_random_dname`: the single-line distinguished-name string
`CN=.., OU=.., O=.., L=.., S=.., C=..` with each value escaped by `esc`. -/
def random_dname (d : DNameInfo) : Str :=
  "CN=".toList ++ escDn (commonName d) ++
  ", OU=".toList ++ escDn d.organization_unit ++
  ", O=".toList ++ escDn d.organization ++
  ", L=".toList ++ escDn d.city ++
  ", S=".toList ++ escDn d.state ++
  ", C=".toList ++ escDn d.country_code

/-! ## DN codec: `_split_dn`, `_unescape_dn`, owner parsing (decode) -/

/-- The loop body of `_split_dn`: `escaped` is the escape flag, `current`
the accumulated segment.  A backslash in the unescaped state is consumed
and escapes the next character; an unescaped comma closes the current
segment, which is stripped and kept only if nonempty. -/
def splitDnGo : Str → Bool → Str → List Str
  | [], _, current =>
      let tail := pyStrip current
      if tail = [] then [] else [tail]
  | c :: rest, escaped, current =>
      if escaped then splitDnGo rest false (current ++ [c])
      else if c = '\\' then splitDnGo rest true current
      else if c = ',' then
        (let part := pyStrip current
         if part = [] then [] else [part]) ++ splitDnGo rest false []
      else splitDnGo rest false (current ++ [c])

/-- `_split_dn`. -/
def split_dn (owner : Str) : List Str := splitDnGo owner false []

/-- `_unescape_dn`: `value.replace("\\,", ",").replace("\\\\", "\\").strip()`. -/
def unescape_dn (v : Str) : Str :=
  pyStrip (pyReplace2 '\\' '\\' ['\\'] (pyReplace2 '\\' ',' [','] v))

/-- The `parts` dict built inside `_read_dname_from_jks`: one entry per
segment containing `'='`, key stripped, value unescaped, kept in iteration
order (a later duplicate key overwrites an earlier one; see `dictGet`). -/
def buildParts : List Str → List (Str × Str)
  | [] => []
  | item :: rest =>
      match splitEq1 item with
      | none => buildParts rest
      | some (k, v) => (pyStrip k, unescape_dn v) :: buildParts rest

/-- Python `dict` lookup for an assoc list built in insertion order where a
later binding of the same key overwrites an earlier one: the last binding
wins.  `parts.get(k)` is `dictGet parts k`. -/
def dictGet : List (Str × Str) → Str → Option Str
  | [], _ => none
  | (k, v) :: rest, key =>
      match dictGet rest key with
      | some v' => some v'
      | none => if k = key then some v else none

/-- `parts.get(k, "")`. -/
def dictGetD (parts : List (Str × Str)) (key : Str) : Str :=
  (dictGet parts key).getD []

/-- The `parts` dict of `_read_dname_from_jks` for a given owner string. -/
def dnParts (owner : Str) : List (Str × Str) := buildParts (split_dn owner)

/-- The `DNameInfo` built from a nonempty `parts` dict (the constructor
call at the end of `_read_dname_from_jks`): `CN` split at the first and
last space (`split(" ")[0]` / `split(" ")[-1]`), `S` falling back to `ST`
through Python `or`, every other key defaulting to the empty string. -/
def dnFromParts (parts : List (Str × Str)) : DNameInfo :=
  { first_name :=
      if dictGetD parts ['C', 'N'] = [] then []
      else (dictGetD parts ['C', 'N']).takeWhile (fun c => c ≠ ' ')
    last_name :=
      if dictGetD parts ['C', 'N'] = [] then []
      else ((dictGetD parts ['C', 'N']).reverse.takeWhile (fun c => c ≠ ' ')).reverse
    organization_unit := dictGetD parts ['O', 'U']
    organization := dictGetD parts ['O']
    city := dictGetD parts ['L']
    state := pyOrS (dictGet parts ['S']) (pyOrS (dictGet parts ['S', 'T']) [])
    country_code := dictGetD parts ['C'] }

/-- The owner-string parsing inside `_read_dname_from_jks` (lines 264-286
of `main.py`): `None` when the owner string is empty or yields no
`KEY=value` segments, otherwise the seven fields extracted from the
`parts` dict. -/
def decode_dn (owner : Str) : Option DNameInfo :=
  if owner = [] then none
  else if dnParts owner = [] then none
  else some (dnFromParts (dnParts owner))

/-- The owner-line scan of `_read_dname_from_jks`: the first line of the
listing whose stripped form starts with `Owner:` yields the text after the
first `Owner:` occurrence, stripped. -/
def findOwnerLine : List Str → Option Str
  | [] => none
  | line :: rest =>
      if ("Owner:".toList).isPrefixOf (pyStrip line) then
        some (pyStrip ((splitAfter "Owner:".toList line).getD []))
      else findOwnerLine rest

/-- `_read_dname_from_jks` as a function of the captured stdout of a
successful `keytool -list -v` run: `None` when no `Owner:` line exists or
the owner string is empty or unparseable. -/
def read_dname_from_stdout (stdout : Str) : Option DNameInfo :=
  match findOwnerLine (pySplitlines stdout) with
  | none => none
  | some owner => decode_dn owner

/-! ## `_sanitize_name` -/

/-- The character class kept by `_sanitize_name`'s regex `[A-Za-z0-9._-]`
(ASCII, as in the source pattern). -/
def allowedChar (c : Char) : Bool :=
  ('A' ≤ c && c ≤ 'Z') || ('a' ≤ c && c ≤ 'z') || ('0' ≤ c && c ≤ '9') ||
  c == '.' || c == '_' || c == '-'

/-- `re.sub(r"[^A-Za-z0-9._-]+", "_", value)`: each maximal run of
disallowed characters becomes a single underscore.  `inRun` records whether
the previous character belonged to such a run. -/
def subRuns (inRun : Bool) : Str → Str
  | [] => []
  | c :: rest =>
      if allowedChar c then c :: subRuns false rest
      else if inRun then subRuns true rest
      else '_' :: subRuns true rest

/-- `_sanitize_name`: strip, collapse disallowed-character runs to `_`
(`value or "keystore"` falls back to the fixed token when the result is
empty). -/
def sanitize_name (value : Str) : Str :=
  if subRuns false (pyStrip value) = [] then "keystore".toList
  else subRuns false (pyStrip value)

/-! ## Project paths, decimal rendering, archival -/

def GENERATED_DIR : Str := "generated".toList
def GENERATED_OLD_DIR : Str := "generated_old".toList

/-- `os.path.join` for the relative path components the program uses. -/
def ospJoin (a b : Str) : Str := a ++ '/' :: b

/-- `_project_paths`: the project directory for a sanitized base name. -/
def project_dir (b : Str) : Str := ospJoin GENERATED_DIR b

def jks_path (b : Str) : Str := ospJoin (project_dir b) (b ++ ".jks".toList)

def pem_path (b : Str) : Str := ospJoin (project_dir b) (b ++ ".pem".toList)

def info_path (b : Str) : Str := ospJoin (project_dir b) "info.txt".toList

def user_path (b : Str) : Str := ospJoin (project_dir b) "user.txt".toList

/-- Digit characters for decimal rendering. -/
def digitChar : Nat → Char
  | 0 => '0' | 1 => '1' | 2 => '2' | 3 => '3' | 4 => '4'
  | 5 => '5' | 6 => '6' | 7 => '7' | 8 => '8' | 9 => '9'
  | _ => '?'

/-- Little-endian decimal digits with explicit fuel (structural recursion,
so that the kernel can evaluate it; `natDigitsRevGo_eq` shows the fuel is
irrelevant as long as it is at least `n`). -/
def natDigitsRevGo : Nat → Nat → Str
  | 0, _ => []
  | fuel + 1, n =>
      if n = 0 then [] else digitChar (n % 10) :: natDigitsRevGo fuel (n / 10)

/-- Little-endian decimal digits of a positive number (empty for 0). -/
def natDigitsRev (n : Nat) : Str := natDigitsRevGo n n

/-- Decimal rendering of a natural number, as in Python's `f"{idx}"`. -/
def natRepr (n : Nat) : Str :=
  if n = 0 then ['0'] else (natDigitsRev n).reverse

/-- The unsuffixed archive directory `os.path.join(GENERATED_OLD_DIR, base_name)`. -/
def old_dir_base (b : Str) : Str := ospJoin GENERATED_OLD_DIR b

/-- The suffixed archive candidate `os.path.join(GENERATED_OLD_DIR, f"{base_name}-{idx}")`. -/
def old_dir_cand (b : Str) (idx : Nat) : Str :=
  ospJoin GENERATED_OLD_DIR (b ++ '-' :: natRepr idx)

/-- The `while` loop of `_next_old_project_dir`, searching the first free
suffix index.  `os.path.exists` is modelled by membership in the list of
existing paths.  The loop of the source is unbounded; here it carries fuel,
and `nextOldGo_not_mem` below shows that with fuel `existing.length + 1`
the fuel never runs out, so the fuel-exhausted branch is dead code. -/
def nextOldGo (existing : List Str) (b : Str) : Nat → Nat → Str
  | idx, 0 => old_dir_cand b idx
  | idx, fuel + 1 =>
      if old_dir_cand b idx ∈ existing then nextOldGo existing b (idx + 1) fuel
      else old_dir_cand b idx

/-- `_next_old_project_dir`, over the set of currently existing paths. -/
def next_old_project_dir (existing : List Str) (b : Str) : Str :=
  if old_dir_base b ∈ existing then nextOldGo existing b 1 (existing.length + 1)
  else old_dir_base b

/-! ## Filesystem model -/

/-- A filesystem snapshot: the existing paths, each carrying a `Nat` tag
identifying its content (directories carry tag `0`).  `os.path.exists` is
`FS.existsPath`. -/
structure FS where
  entries : List (Str × Nat)
deriving DecidableEq, Repr

def FS.existsPath (fs : FS) (p : Str) : Bool :=
  fs.entries.any (fun e => e.1 == p)

def FS.pathsOf (fs : FS) : List Str := fs.entries.map (fun e => e.1)

/-- `os.makedirs(p, exist_ok=True)` (parent directories are not tracked
separately; no query in the program distinguishes them). -/
def fsMakedirs (fs : FS) (p : Str) : FS :=
  if fs.existsPath p then fs else ⟨(p, 0) :: fs.entries⟩

/-- Path rewriting performed by `os.replace(src, dst)` on a directory:
the directory itself and everything below it moves. -/
def movePath (src dst q : Str) : Str :=
  if q = src then dst
  else if (src ++ ['/']).isPrefixOf q then dst ++ q.drop src.length
  else q

/-- `os.replace(src, dst)` (the call sites guarantee `dst` does not exist). -/
def fsReplace (fs : FS) (src dst : Str) : FS :=
  ⟨fs.entries.map (fun e => (movePath src dst e.1, e.2))⟩

/-- `open(p, "w")` / copying into `p`: the path now holds content `t`;
a previous file at the same path is overwritten. -/
def fsWrite (fs : FS) (p : Str) (t : Nat) : FS :=
  ⟨(p, t) :: fs.entries.filter (fun e => e.1 != p)⟩

/-- The archive directory `_archive_existing_project` moves the project
directory to (chosen after ensuring the archive root exists). -/
def archiveTarget (fs : FS) (b : Str) : Str :=
  next_old_project_dir (fsMakedirs fs GENERATED_OLD_DIR).pathsOf b

/-- `_archive_existing_project`: when the project directory exists, ensure
the archive root exists, pick the next free archive directory and move the
project directory there. -/
def archiveFS (fs : FS) (b : Str) : FS :=
  if fs.existsPath (project_dir b) then
    fsReplace (fsMakedirs fs GENERATED_OLD_DIR) (project_dir b) (archiveTarget fs b)
  else fs

/-! ## `_format_info` -/

/-- The header line of `_format_info`'s output, by codepoint (the source
literal is a mojibake character sequence; these are its exact codepoints,
without the trailing newline). -/
def infoHeader : Str :=
  [Char.ofNat 0xf0, Char.ofNat 0x178, Char.ofNat 0x201d, ' ',
   Char.ofNat 0xd0, Char.ofNat 0x201d, Char.ofNat 0xd0, Char.ofNat 0xb0,
   Char.ofNat 0xd0, Char.ofNat 0xbd, Char.ofNat 0xd0, Char.ofNat 0xbd,
   Char.ofNat 0xd1, Char.ofNat 0x2039, Char.ofNat 0xd0, Char.ofNat 0xb5, ' ',
   Char.ofNat 0xd0, Char.ofNat 0xba, Char.ofNat 0xd0, Char.ofNat 0xbb,
   Char.ofNat 0xd1, Char.ofNat 0x17d, Char.ofNat 0xd1, Char.ofNat 0x2021,
   Char.ofNat 0xd0, Char.ofNat 0xb0, ':']

/-- The `val` helper of `_format_info`: `value if value else "-"`. -/
def valOrDash (v : Str) : Str := if v = [] then ['-'] else v

/-- `_format_info`: `None` is replaced by the all-empty identity, then the
header line, seven labelled fields, a blank line and the credentials. -/
def format_info (dname_info : Option DNameInfo) (aliasName pw : Str) : Str :=
  let d := dname_info.getD emptyDName
  infoHeader ++ '\n' ::
  ("First name: ".toList ++ valOrDash d.first_name ++
   "\nLast name: ".toList ++ valOrDash d.last_name ++
   "\nOrganization unit: ".toList ++ valOrDash d.organization_unit ++
   "\nOrganization: ".toList ++ valOrDash d.organization ++
   "\nCity: ".toList ++ valOrDash d.city ++
   "\nState: ".toList ++ valOrDash d.state ++
   "\nCountry code: ".toList ++ valOrDash d.country_code ++
   "\n\nAlias: ".toList ++ aliasName ++
   "\nPassword: ".toList ++ pw)

/-! ## `_parse_alias_password` and `document_handler` -/

/-- `_parse_alias_password`: the non-blank lines of the text, each
stripped (`[line.strip() for line in text.splitlines() if line.strip()]`);
the first is the alias, the second the password, `None` when absent. -/
def parse_alias_password (text : Str) : Option Str × Option Str :=
  match ((pySplitlines text).map pyStrip).filter (fun l => l ≠ []) with
  | [] => (none, none)
  | [a] => (some a, none)
  | a :: b :: _ => (some a, some b)

/-- The `FileRequest` dataclass. -/
structure FileRequest where
  file_id : Str
  filename : Str
  aliasName : Option Str
  password : Option Str
deriving DecidableEq, Repr

/-- Python truthiness of an `Optional[str]`. -/
def pyTruthyOpt (o : Option Str) : Bool :=
  match o with
  | none => false
  | some s => s ≠ []

/-- The outcome of `document_handler` on an uploaded document: prompt for
the alias (entering `waiting_alias`), prompt for the password (entering
`waiting_password`), or invoke `_process_request` directly. -/
inductive DocAction where
  | askAlias : FileRequest → DocAction
  | askPassword : FileRequest → DocAction
  | process : FileRequest → DocAction
deriving DecidableEq, Repr

/-- `document_handler`: parse alias/password from the caption
(`message.caption or ""`), default the filename, then dispatch. -/
def document_handler (file_id : Str) (file_name : Option Str)
    (caption : Option Str) : DocAction :=
  let cap := caption.getD []
  let ap := parse_alias_password cap
  let req : FileRequest :=
    ⟨file_id, pyOrS file_name "keystore.jks".toList, ap.1, ap.2⟩
  if pyTruthyOpt ap.1 = false then .askAlias req
  else if pyTruthyOpt ap.2 = false then .askPassword req
  else .process req

/-! ## `_process_request` pipeline traces -/

/-- `os.path.splitext(s)[0]` for a plain file name (no directory
separators, as Telegram file names are): everything before the last dot,
except that a dot inside the leading run of dots does not count as an
extension separator. -/
def splitextBase (s : Str) : Str :=
  let lead := s.takeWhile (fun c => c == '.')
  let rest := s.drop lead.length
  if rest.contains '.' then
    (((s.reverse).takeWhile (fun c => c != '.')).length + 1 |> fun n =>
      s.take (s.length - n))
  else s

/-- Content tags for the files a run writes, plus the success flags of the
two external `keytool` invocations the fresh-generation path performs. -/
structure GenParams where
  genOk : Bool
  exportOk : Bool
  tJks : Nat
  tPem : Nat
  tInfo : Nat
  tUser : Nat
deriving DecidableEq, Repr

/-- The filesystem states traversed by `_process_request` on the
fresh-name path (`package_name` given, `use_existing=False`), in order:
initial state; after `os.makedirs(project_dir)` (line 375); after the
conditional archive-and-recreate (lines 385-387); then, as far as the
external tools succeed, after writing the keystore, the certificate, the
info file and the user file.  A failing `keytool` call raises, which aborts
all remaining filesystem writes (the exception handlers only send
messages). -/
def processFreshStates (fs0 : FS) (package_name : Str) (q : GenParams) :
    List FS :=
  let b := sanitize_name package_name
  let s1 := fsMakedirs fs0 (project_dir b)
  let s2 :=
    if s1.existsPath (jks_path b) || s1.existsPath (pem_path b) then
      fsMakedirs (archiveFS s1 b) (project_dir b)
    else s1
  if q.genOk = false then [fs0, s1, s2]
  else
    let s3 := fsWrite s2 (jks_path b) q.tJks
    if q.exportOk = false then [fs0, s1, s2, s3]
    else
      let s4 := fsWrite s3 (pem_path b) q.tPem
      let s5 := fsWrite s4 (info_path b) q.tInfo
      let s6 := fsWrite s5 (user_path b) q.tUser
      [fs0, s1, s2, s3, s4, s5, s6]

/-- Result of a run on the uploaded-file path: the traversed filesystem
states, whether the artifacts were delivered (line 425 reached), and the
info text written and used as the delivery caption. -/
structure UploadResult where
  trace : List FS
  delivered : Bool
  info : Option Str
deriving DecidableEq, Repr

/-- `_process_request` on the uploaded-file path (`file_req` given): the
alias/password default via `or`, the base name comes from the uploaded
file name, the keystore is ingested byte-for-byte (one write; the
temporary download directory is scoped and dropped), the certificate is
exported, and the identity is read back from the keystore listing
(`listOk` is that invocation's exit status, `listingStdout` its captured
stdout). -/
def processUpload (fs0 : FS) (file_req : FileRequest)
    (q : GenParams) (listOk : Bool) (listingStdout : Str) : UploadResult :=
  let aliasName := pyOrS file_req.aliasName "key0".toList
  let pw := pyOrS file_req.password "1234567890".toList
  let b := sanitize_name (splitextBase file_req.filename)
  let s1 := fsMakedirs fs0 (project_dir b)
  let s2 :=
    if s1.existsPath (jks_path b) || s1.existsPath (pem_path b) then
      fsMakedirs (archiveFS s1 b) (project_dir b)
    else s1
  let s3 := fsWrite s2 (jks_path b) q.tJks
  if q.exportOk = false then ⟨[fs0, s1, s2, s3], false, none⟩
  else
    let s4 := fsWrite s3 (pem_path b) q.tPem
    if listOk = false then ⟨[fs0, s1, s2, s3, s4], false, none⟩
    else
      let dn := read_dname_from_stdout listingStdout
      let info := format_info dn aliasName pw
      let s5 := fsWrite s4 (info_path b) q.tInfo
      let s6 := fsWrite s5 (user_path b) q.tUser
      ⟨[fs0, s1, s2, s3, s4, s5, s6], true, some info⟩

/-- The completeness predicate of the claimed invariant: the project
directory for `b` either does not exist or contains the full artifact
set. -/
def projInvariant (fs : FS) (b : Str) : Bool :=
  !(fs.existsPath (project_dir b)) ||
  (fs.existsPath (jks_path b) && fs.existsPath (pem_path b) &&
   fs.existsPath (info_path b) && fs.existsPath (user_path b))

/-! ## Spec-side definitions (for refinement comparisons) -/

/-- The escaping described by the spec, as a single character map:
backslash becomes double-backslash, comma becomes backslash-comma, any
other character stands unchanged. -/
def specEscDn : Str → Str
  | [] => []
  | c :: rest =>
      (if c = '\\' then ['\\', '\\']
       else if c = ',' then ['\\', ',']
       else [c]) ++ specEscDn rest

/-- The DN string as the spec describes it:
`CN={first} {last}, OU={unit}, O={org}, L={city}, S={state}, C={country}`
with each value escaped. -/
def spec_dname (d : DNameInfo) : Str :=
  "CN=".toList ++ specEscDn (d.first_name ++ ' ' :: d.last_name) ++
  ", OU=".toList ++ specEscDn d.organization_unit ++
  ", O=".toList ++ specEscDn d.organization ++
  ", L=".toList ++ specEscDn d.city ++
  ", S=".toList ++ specEscDn d.state ++
  ", C=".toList ++ specEscDn d.country_code

/-- The identity-summary text exactly as claim C9 words it: seven labelled
lines, a blank line, then the `Alias:` and `Password:` lines — and nothing
else. -/
def c9ClaimedText (d : DNameInfo) (aliasName pw : Str) : Str :=
  "First name: ".toList ++ valOrDash d.first_name ++
  "\nLast name: ".toList ++ valOrDash d.last_name ++
  "\nOrganization unit: ".toList ++ valOrDash d.organization_unit ++
  "\nOrganization: ".toList ++ valOrDash d.organization ++
  "\nCity: ".toList ++ valOrDash d.city ++
  "\nState: ".toList ++ valOrDash d.state ++
  "\nCountry code: ".toList ++ valOrDash d.country_code ++
  "\n\nAlias: ".toList ++ aliasName ++
  "\nPassword: ".toList ++ pw

/-! ## Basic lemmas about the string primitives -/

theorem pyReplace1_append (pat : Char) (rep : Str) (s t : Str) :
    pyReplace1 pat rep (s ++ t) = pyReplace1 pat rep s ++ pyReplace1 pat rep t := by
  induction s with
  | nil => rfl
  | cons c cs ih => simp [pyReplace1, ih]

theorem escDn_nil : escDn [] = [] := rfl

theorem escDn_cons (c : Char) (v : Str) :
    escDn (c :: v) =
      (if c = '\\' then ['\\', '\\']
       else if c = ',' then ['\\', ',']
       else [c]) ++ escDn v := by
  by_cases h1 : c = '\\'
  · subst h1; simp [escDn, pyReplace1]
  · by_cases h2 : c = ','
    · subst h2; simp [escDn, pyReplace1]
    · simp [escDn, pyReplace1, h1, h2]

theorem escDn_eq_specEscDn (v : Str) : escDn v = specEscDn v := by
  induction v with
  | nil => rfl
  | cons c cs ih => rw [escDn_cons, specEscDn, ih]

/-- C4: `_random_dname` produces exactly the fixed-order DN line the spec
describes, with backslash-then-comma escaping of each value. -/
theorem random_dname_eq_spec (d : DNameInfo) : random_dname d = spec_dname d := by
  unfold random_dname spec_dname commonName
  rw [escDn_eq_specEscDn, escDn_eq_specEscDn, escDn_eq_specEscDn,
      escDn_eq_specEscDn, escDn_eq_specEscDn, escDn_eq_specEscDn]

/-- C9 (amended): `_format_info` produces the seven labelled identity
lines, blank line and credential lines exactly as described — but preceded
by a header line; and a missing identity is rendered as the all-empty one,
every field shown as `-`. -/
theorem format_info_structure (d : DNameInfo) (aliasName pw : Str) :
    format_info (some d) aliasName pw =
      infoHeader ++ '\n' :: c9ClaimedText d aliasName pw ∧
    format_info none aliasName pw =
      infoHeader ++ '\n' :: c9ClaimedText emptyDName aliasName pw := by
  constructor <;> rfl

/-- C9, counterexample to the claim as stated: the summary text does not
consist of the seven labelled lines, blank line and credential lines alone
(there is a leading header line). -/
theorem format_info_not_bare_fields :
    format_info none "key0".toList "1234567890".toList ≠
      c9ClaimedText emptyDName "key0".toList "1234567890".toList := by
  decide

/-! ## Sanitization: lemmas and C5 -/

theorem allowed_not_space (c : Char) (h : allowedChar c = true) :
    isPySpace c = false := by
  cases hs : isPySpace c
  · rfl
  · exfalso
    have hc : c = ' ' ∨ c = '\t' ∨ c = '\n' ∨ c = '\r' ∨ c = '\x0b' ∨ c = '\x0c' := by
      simpa [isPySpace, or_assoc] using hs
    rcases hc with h1 | h1 | h1 | h1 | h1 | h1 <;> subst h1 <;>
      exact absurd h (by decide)

theorem dropWhile_eq_self_of_head (p : Char → Bool) (l : Str)
    (h : ∀ c ∈ l, p c = false) : l.dropWhile p = l := by
  cases l with
  | nil => rfl
  | cons c cs =>
      rw [List.dropWhile_cons, if_neg]
      simp [h c (List.mem_cons_self c cs)]

theorem lstrip_eq_self_of_all (l : Str)
    (h : ∀ c ∈ l, isPySpace c = false) : lstrip l = l :=
  dropWhile_eq_self_of_head _ _ h

theorem rstrip_eq_self_of_all (l : Str)
    (h : ∀ c ∈ l, isPySpace c = false) : rstrip l = l := by
  unfold rstrip
  rw [dropWhile_eq_self_of_head _ _ (fun c hc => h c (List.mem_reverse.mp hc)),
      List.reverse_reverse]

theorem pyStrip_eq_self_of_all (l : Str)
    (h : ∀ c ∈ l, isPySpace c = false) : pyStrip l = l := by
  unfold pyStrip
  rw [lstrip_eq_self_of_all l h, rstrip_eq_self_of_all l h]

theorem subRuns_all_allowed (s : Str) (b : Bool) :
    ∀ c ∈ subRuns b s, allowedChar c = true := by
  induction s generalizing b with
  | nil => intro c hc; simp [subRuns] at hc
  | cons c cs ih =>
      intro x hx
      by_cases hall : allowedChar c
      · rw [subRuns, if_pos hall] at hx
        rcases List.mem_cons.mp hx with h | h
        · rwa [h]
        · exact ih false x h
      · rw [subRuns, if_neg hall] at hx
        cases b with
        | true => exact ih true x hx
        | false =>
            rcases List.mem_cons.mp hx with h | h
            · rw [h]; decide
            · exact ih true x h

theorem subRuns_eq_self_of_all (s : Str)
    (h : ∀ c ∈ s, allowedChar c = true) : subRuns false s = s := by
  induction s with
  | nil => rfl
  | cons c cs ih =>
      rw [subRuns, if_pos (h c (List.mem_cons_self c cs))]
      rw [ih (fun d hd => h d (List.mem_cons_of_mem c hd))]

theorem subRuns_ne_nil (s : Str) (hs : s ≠ []) : subRuns false s ≠ [] := by
  cases s with
  | nil => exact absurd rfl hs
  | cons c cs =>
      by_cases hall : allowedChar c
      · rw [subRuns, if_pos hall]; exact List.cons_ne_nil _ _
      · rw [subRuns, if_neg hall]; exact List.cons_ne_nil _ _

/-- C5: `_sanitize_name` is idempotent and never returns the empty
string. -/
theorem sanitize_name_idem_and_nonempty (x : Str) :
    sanitize_name (sanitize_name x) = sanitize_name x ∧ sanitize_name x ≠ [] := by
  have hfix : ∀ y : Str, (∀ c ∈ y, allowedChar c = true) → y ≠ [] →
      sanitize_name y = y := by
    intro y hall hne
    unfold sanitize_name
    rw [pyStrip_eq_self_of_all y (fun c hc => allowed_not_space c (hall c hc))]
    rw [subRuns_eq_self_of_all y hall]
    exact if_neg hne
  unfold sanitize_name
  by_cases h : subRuns false (pyStrip x) = []
  · rw [if_pos h]
    refine ⟨?_, by decide⟩
    exact hfix "keystore".toList (by decide) (by decide)
  · rw [if_neg h]
    exact ⟨hfix _ (subRuns_all_allowed _ _) h, h⟩

/-! ## `_split_dn`: scan-state bookkeeping and C10 -/

/-- Whether a subsequent scan of `_split_dn`'s loop over `s`, started with
escape flag `b`, ends with the escape flag set (i.e. `s` ends in an
escaping backslash). -/
def escAfter : Str → Bool → Bool
  | [], b => b
  | c :: rest, b =>
      escAfter rest (if b then false else if c = '\\' then true else false)

theorem splitDnGo_escape (c : Char) (s cur : Str) :
    splitDnGo ('\\' :: c :: s) false cur = splitDnGo s false (cur ++ [c]) := by
  simp [splitDnGo]

theorem splitDnGo_drop_trailing_backslash (s : Str) :
    ∀ (b : Bool) (cur : Str), escAfter s b = false →
      splitDnGo (s ++ ['\\']) b cur = splitDnGo s b cur := by
  induction s with
  | nil =>
      intro b cur h
      have hb : b = false := h
      subst hb
      simp [splitDnGo]
  | cons c cs ih =>
      intro b cur h
      rw [escAfter] at h
      cases b with
      | true =>
          rw [if_pos rfl] at h
          simp only [List.cons_append, splitDnGo, if_pos]
          exact ih false (cur ++ [c]) h
      | false =>
          rw [if_neg (by simp)] at h
          by_cases hc : c = '\\'
          · subst hc
            rw [if_pos rfl] at h
            simp only [List.cons_append, splitDnGo, if_neg Bool.false_ne_true,
              if_pos rfl]
            exact ih true cur h
          · rw [if_neg hc] at h
            by_cases hcc : c = ','
            · subst hcc
              simp only [List.cons_append, splitDnGo]
              rw [if_neg Bool.false_ne_true, if_neg Bool.false_ne_true,
                if_neg (by decide : ¬(',' : Char) = '\\'),
                if_neg (by decide : ¬(',' : Char) = '\\'), if_pos trivial,
                if_pos trivial]
              exact congrArg (fun l =>
                (if pyStrip cur = [] then [] else [pyStrip cur]) ++ l)
                (ih false [] h)
            · simp only [List.cons_append, splitDnGo, if_neg Bool.false_ne_true,
                if_neg hc, if_neg hcc]
              exact ih false (cur ++ [c]) h

theorem splitDnGo_empty_segment (s cur : Str) (h : pyStrip cur = []) :
    splitDnGo (',' :: s) false cur = splitDnGo s false [] := by
  simp [splitDnGo, h]

theorem splitDnGo_drop_trailing_comma (s : Str) :
    ∀ (b : Bool) (cur : Str), escAfter s b = false →
      splitDnGo (s ++ [',']) b cur = splitDnGo s b cur := by
  induction s with
  | nil =>
      intro b cur h
      have hb : b = false := h
      subst hb
      simp [splitDnGo]
      decide
  | cons c cs ih =>
      intro b cur h
      rw [escAfter] at h
      cases b with
      | true =>
          rw [if_pos rfl] at h
          simp only [List.cons_append, splitDnGo, if_pos]
          exact ih false (cur ++ [c]) h
      | false =>
          rw [if_neg (by simp)] at h
          by_cases hc : c = '\\'
          · subst hc
            rw [if_pos rfl] at h
            simp only [List.cons_append, splitDnGo, if_neg Bool.false_ne_true,
              if_pos rfl]
            exact ih true cur h
          · rw [if_neg hc] at h
            by_cases hcc : c = ','
            · subst hcc
              simp only [List.cons_append, splitDnGo]
              rw [if_neg Bool.false_ne_true, if_neg Bool.false_ne_true,
                if_neg (by decide : ¬(',' : Char) = '\\'),
                if_neg (by decide : ¬(',' : Char) = '\\'), if_pos trivial,
                if_pos trivial]
              exact congrArg (fun l =>
                (if pyStrip cur = [] then [] else [pyStrip cur]) ++ l)
                (ih false [] h)
            · simp only [List.cons_append, splitDnGo, if_neg Bool.false_ne_true,
                if_neg hc, if_neg hcc]
              exact ih false (cur ++ [c]) h

/-- C10: `_split_dn` is total (it is a function of the whole input); a
backslash escapes exactly the next character and is itself consumed; a
trailing backslash (one that would act as an escape, i.e. the scan of the
prefix did not already consume it) is silently dropped; and segments that
are empty after trimming — e.g. a leading comma's empty segment, or the
segment before a trailing comma when it strips to nothing — are omitted. -/
theorem split_dn_props :
    (∀ (c : Char) (s cur : Str),
        splitDnGo ('\\' :: c :: s) false cur = splitDnGo s false (cur ++ [c])) ∧
    (∀ s : Str, escAfter s false = false →
        split_dn (s ++ ['\\']) = split_dn s) ∧
    (∀ s : Str, split_dn (',' :: s) = split_dn s) ∧
    (∀ s cur : Str, pyStrip cur = [] →
        splitDnGo (',' :: s) false cur = splitDnGo s false []) ∧
    (∀ s : Str, escAfter s false = false →
        split_dn (s ++ [',']) = split_dn s) := by
  refine ⟨splitDnGo_escape, ?_, ?_, splitDnGo_empty_segment, ?_⟩
  · intro s h
    exact splitDnGo_drop_trailing_backslash s false [] h
  · intro s
    exact splitDnGo_empty_segment s [] rfl
  · intro s h
    exact splitDnGo_drop_trailing_comma s false [] h

/-- Witness for `split_dn_props`: the conditional parts applied at
concrete inputs. -/
theorem split_dn_props_witness :
    split_dn ("a\\,b".toList ++ ['\\']) = split_dn "a\\,b".toList ∧
    split_dn (',' :: "x=1".toList) = split_dn "x=1".toList ∧
    split_dn ("x=1, y=2".toList ++ [',']) = split_dn "x=1, y=2".toList := by
  refine ⟨split_dn_props.2.1 _ (by decide), split_dn_props.2.2.1 _,
    split_dn_props.2.2.2.2 _ (by decide)⟩

/-! ## Decode-path lemmas -/

theorem lstrip_cons_nonspace (c : Char) (s : Str) (h : isPySpace c = false) :
    lstrip (c :: s) = c :: s := by
  unfold lstrip
  rw [List.dropWhile_cons, if_neg (by simp [h])]

theorem lstrip_cons_space (c : Char) (s : Str) (h : isPySpace c = true) :
    lstrip (c :: s) = lstrip s := by
  unfold lstrip
  rw [List.dropWhile_cons, if_pos (by simp [h])]

theorem rstrip_append_of (l v : Str) (hv : rstrip v = v) (hne : v ≠ []) :
    rstrip (l ++ v) = l ++ v := by
  have h1 : v.reverse.dropWhile isPySpace = v.reverse := by
    have := congrArg List.reverse hv
    simpa [rstrip] using this
  unfold rstrip
  rw [List.reverse_append, List.dropWhile_append, h1]
  rw [if_neg (by simp [hne])]
  simp

theorem pyStrip_label_append (c : Char) (l v : Str)
    (hc : isPySpace c = false) (hv : rstrip v = v) (hne : v ≠ []) :
    pyStrip (c :: (l ++ v)) = c :: (l ++ v) := by
  unfold pyStrip
  rw [lstrip_cons_nonspace c (l ++ v) hc]
  have := rstrip_append_of (c :: l) v hv hne
  simpa using this

theorem pyReplace2_eq_self (a b : Char) (r v : Str)
    (h : ∀ c ∈ v, c ≠ a) : pyReplace2 a b r v = v := by
  induction v with
  | nil => rfl
  | cons x xs ih =>
      cases xs with
      | nil => rfl
      | cons y ys =>
          rw [pyReplace2, if_neg]
          · rw [ih (fun c hc => h c (List.mem_cons_of_mem x hc))]
          · intro hab
            exact h x (List.mem_cons_self x (y :: ys)) hab.1

theorem unescape_dn_eq_self_of_no_backslash (v : Str)
    (hb : ∀ c ∈ v, c ≠ '\\') (hs : pyStrip v = v) : unescape_dn v = v := by
  unfold unescape_dn
  rw [pyReplace2_eq_self _ _ _ _ hb, pyReplace2_eq_self _ _ _ _ hb, hs]

theorem splitDnGo_plain (t : Str) (h : ∀ c ∈ t, c ≠ '\\' ∧ c ≠ ',') :
    ∀ rest cur, splitDnGo (t ++ rest) false cur = splitDnGo rest false (cur ++ t) := by
  induction t with
  | nil => intro rest cur; simp
  | cons c cs ih =>
      intro rest cur
      have hc := h c (List.mem_cons_self c cs)
      rw [List.cons_append, splitDnGo, if_neg Bool.false_ne_true,
        if_neg hc.1, if_neg hc.2]
      rw [ih (fun d hd => h d (List.mem_cons_of_mem c hd)) rest (cur ++ [c])]
      simp

theorem split_dn_plain (s : Str) (h : ∀ c ∈ s, c ≠ '\\' ∧ c ≠ ',') :
    split_dn s = if pyStrip s = [] then [] else [pyStrip s] := by
  unfold split_dn
  have := splitDnGo_plain s h [] []
  rw [List.append_nil] at this
  rw [this]
  simp [splitDnGo]

theorem splitEq1_eq_none_iff (s : Str) : splitEq1 s = none ↔ '=' ∉ s := by
  induction s with
  | nil => simp [splitEq1]
  | cons c cs ih =>
      by_cases hc : c = '='
      · subst hc
        simp [splitEq1]
      · rw [splitEq1, if_neg hc]
        cases hsp : splitEq1 cs with
        | none =>
            simp only [hsp]
            simp [List.mem_cons, Ne.symm hc, ih.mp hsp]
        | some kv =>
            simp only [hsp]
            constructor
            · intro h; exact absurd h (by simp)
            · intro h
              exact absurd (ih.mpr (fun hm => h (List.mem_cons_of_mem c hm))) (by simp [hsp])

theorem buildParts_eq_nil_iff (items : List Str) :
    buildParts items = [] ↔ ∀ item ∈ items, splitEq1 item = none := by
  induction items with
  | nil => simp [buildParts]
  | cons item rest ih =>
      cases hsp : splitEq1 item with
      | none => simp [buildParts, hsp, ih]
      | some kv => simp [buildParts, hsp]

theorem split_dn_nil : split_dn [] = [] := rfl

/-- `decode_dn` yields `None` exactly when no segment of the split owner
string contains an `'='`. -/
theorem decode_dn_eq_none_iff (owner : Str) :
    decode_dn owner = none ↔ ∀ seg ∈ split_dn owner, '=' ∉ seg := by
  by_cases h0 : owner = []
  · subst h0
    rw [split_dn_nil]
    simp [decode_dn]
  · unfold decode_dn
    rw [if_neg h0]
    constructor
    · intro hn seg hseg
      have hp : dnParts owner = [] := by
        by_contra hp
        rw [if_neg hp] at hn
        exact Option.noConfusion hn
      rw [← splitEq1_eq_none_iff]
      exact (buildParts_eq_nil_iff _).mp hp seg hseg
    · intro hall
      have hp : dnParts owner = [] :=
        (buildParts_eq_nil_iff _).mpr
          (fun item hm => (splitEq1_eq_none_iff _).mpr (hall item hm))
      rw [if_pos hp]

theorem lstrip_length_le (s : Str) : (lstrip s).length ≤ s.length :=
  (List.dropWhile_suffix _).sublist.length_le

theorem rstrip_length_le (s : Str) : (rstrip s).length ≤ s.length := by
  unfold rstrip
  rw [List.length_reverse]
  calc (s.reverse.dropWhile isPySpace).length ≤ s.reverse.length :=
        (List.dropWhile_suffix _).sublist.length_le
    _ = s.length := List.length_reverse s

theorem strip_fixes_of_pyStrip (v : Str) (h : pyStrip v = v) :
    lstrip v = v ∧ rstrip v = v := by
  have hsuf : lstrip v <:+ v := List.dropWhile_suffix _
  have hlen : (lstrip v).length = v.length := by
    have h1 : v.length ≤ (lstrip v).length := by
      calc v.length = (pyStrip v).length := by rw [h]
        _ ≤ (lstrip v).length := rstrip_length_le _
    exact Nat.le_antisymm (lstrip_length_le v) h1
  have hls : lstrip v = v := List.IsSuffix.eq_of_length hsuf hlen
  refine ⟨hls, ?_⟩
  have := h
  rw [pyStrip, hls] at this
  exact this

theorem rstrip_cons_of (c : Char) (v : Str) (hc : isPySpace c = false)
    (hv : rstrip v = v) : rstrip (c :: v) = c :: v := by
  by_cases hne : v = []
  · subst hne
    simp [rstrip, List.dropWhile, hc]
  · have := rstrip_append_of [c] v hv hne
    simpa using this

theorem splitEq1_label (l v : Str) (hl : ∀ c ∈ l, c ≠ '=') :
    splitEq1 (l ++ '=' :: v) = some (l, v) := by
  induction l with
  | nil => simp [splitEq1]
  | cons c cs ih =>
      rw [List.cons_append, splitEq1,
        if_neg (hl c (List.mem_cons_self c cs)),
        ih (fun d hd => hl d (List.mem_cons_of_mem c hd))]

/-- The `parts` dict for an owner string that is a single plain
`KEY=value` segment. -/
theorem dnParts_single_label (l v : Str)
    (hl : ∀ c ∈ l, c ≠ '\\' ∧ c ≠ ',' ∧ c ≠ '=' ∧ isPySpace c = false)
    (hlne : l ≠ [])
    (hv : ∀ c ∈ v, c ≠ '\\' ∧ c ≠ ',')
    (hvs : pyStrip v = v) :
    dnParts (l ++ '=' :: v) = [(l, v)] := by
  have hall : ∀ c ∈ l ++ '=' :: v, c ≠ '\\' ∧ c ≠ ',' := by
    intro c hc
    rcases List.mem_append.mp hc with hm | hm
    · exact ⟨(hl c hm).1, (hl c hm).2.1⟩
    · rcases List.mem_cons.mp hm with hm1 | hm1
      · subst hm1; exact ⟨by decide, by decide⟩
      · exact hv c hm1
  obtain ⟨c0, l', rfl⟩ := List.exists_cons_of_ne_nil hlne
  have htail : rstrip ('=' :: v) = '=' :: v :=
    rstrip_cons_of '=' v (by decide) (strip_fixes_of_pyStrip v hvs).2
  have hstr : pyStrip ((c0 :: l') ++ '=' :: v) = (c0 :: l') ++ '=' :: v := by
    rw [List.cons_append]
    exact pyStrip_label_append c0 l' ('=' :: v)
      (hl c0 (List.mem_cons_self c0 l')).2.2.2 htail (List.cons_ne_nil _ _)
  unfold dnParts
  rw [split_dn_plain _ hall, hstr, if_neg (by simp)]
  have hsp := splitEq1_label (c0 :: l') v (fun c hc => (hl c hc).2.2.1)
  simp only [buildParts, hsp]
  rw [pyStrip_eq_self_of_all _ (fun c hc => (hl c hc).2.2.2),
      unescape_dn_eq_self_of_no_backslash v (fun c hc => (hv c hc).1) hvs]

/-- A value acceptable in a single plain `KEY=value` owner segment: no
backslash, no comma, and strip-invariant. -/
def plainValue (v : Str) : Prop :=
  (∀ c ∈ v, c ≠ '\\' ∧ c ≠ ',') ∧ pyStrip v = v

theorem decode_dn_single_key (k : Str) (v : Str)
    (hk : ∀ c ∈ k, c ≠ '\\' ∧ c ≠ ',' ∧ c ≠ '=' ∧ isPySpace c = false)
    (hkne : k ≠ [])
    (hv : plainValue v) :
    decode_dn (k ++ '=' :: v) = some (dnFromParts [(k, v)]) := by
  have hp : dnParts (k ++ '=' :: v) = [(k, v)] :=
    dnParts_single_label k v hk hkne hv.1 hv.2
  unfold decode_dn
  rw [if_neg (by rcases List.exists_cons_of_ne_nil hkne with ⟨c0, l', rfl⟩; simp),
    hp, if_neg (by simp)]

theorem pyOrS_none (d : Str) : pyOrS none d = d := rfl

theorem pyOrS_some (v d : Str) : pyOrS (some v) d = if v = [] then d else v := rfl

theorem dnFromParts_ST (v : Str) :
    dnFromParts [(['S', 'T'], v)] = { emptyDName with state := v } := by
  by_cases hv : v = [] <;>
    simp [dnFromParts, emptyDName, dictGetD, dictGet, pyOrS_none, pyOrS_some, hv]

theorem dnFromParts_S (v : Str) :
    dnFromParts [(['S'], v)] = { emptyDName with state := v } := by
  by_cases hv : v = [] <;>
    simp [dnFromParts, emptyDName, dictGetD, dictGet, pyOrS_none, pyOrS_some, hv]

theorem dnFromParts_X (v : Str) :
    dnFromParts [(['X'], v)] = emptyDName := by
  simp [dnFromParts, emptyDName, dictGetD, dictGet, pyOrS_none, pyOrS_some]

/-- C3: the owner-string decoding maps unknown or missing keys to empty
fields, accepts `S` or `ST` for the state, and yields `None` exactly when
no segment contains a `KEY=value` pair (and, being a total function, it
raises on no input). -/
theorem decode_dn_error_handling :
    (∀ owner : Str, decode_dn owner = none ↔ ∀ seg ∈ split_dn owner, '=' ∉ seg) ∧
    (∀ v : Str, plainValue v →
      decode_dn (['S', 'T', '='] ++ v) = some { emptyDName with state := v }) ∧
    (∀ v : Str, plainValue v →
      decode_dn (['S', '='] ++ v) = some { emptyDName with state := v }) ∧
    (∀ v : Str, plainValue v →
      decode_dn (['X', '='] ++ v) = some emptyDName) := by
  refine ⟨decode_dn_eq_none_iff, ?_, ?_, ?_⟩
  · intro v hv
    have h1 := decode_dn_single_key ['S', 'T'] v (by decide) (by decide) hv
    rw [dnFromParts_ST] at h1
    exact h1
  · intro v hv
    have h1 := decode_dn_single_key ['S'] v (by decide) (by decide) hv
    rw [dnFromParts_S] at h1
    exact h1
  · intro v hv
    have h1 := decode_dn_single_key ['X'] v (by decide) (by decide) hv
    rw [dnFromParts_X] at h1
    exact h1

/-- Witness for `decode_dn_error_handling`: the conditional parts applied
at concrete inputs. -/
theorem decode_dn_error_handling_witness :
    decode_dn (['S', 'T', '='] ++ "Texas".toList) =
      some { emptyDName with state := "Texas".toList } ∧
    decode_dn (['S', '='] ++ "Texas".toList) =
      some { emptyDName with state := "Texas".toList } ∧
    decode_dn (['X', '='] ++ "foo".toList) = some emptyDName ∧
    (decode_dn "no-eq segment".toList = none ↔
      ∀ seg ∈ split_dn "no-eq segment".toList, '=' ∉ seg) :=
  ⟨decode_dn_error_handling.2.1 _ (by constructor <;> decide),
   decode_dn_error_handling.2.2.1 _ (by constructor <;> decide),
   decode_dn_error_handling.2.2.2 _ (by constructor <;> decide),
   decode_dn_error_handling.1 _⟩

/-! ## Round-trip analysis: conditions and scan lemmas -/

/-- Whether the two-character string `a, b` occurs in `s`. -/
def hasSub2 (a b : Char) : Str → Bool
  | x :: y :: rest => (x == a && y == b) || hasSub2 a b (y :: rest)
  | _ => false

theorem hasSub2_tail (a b c : Char) (s : Str)
    (h : hasSub2 a b (c :: s) = false) : hasSub2 a b s = false := by
  cases s with
  | nil => rfl
  | cons y ys =>
      rw [hasSub2] at h
      exact (Bool.or_eq_false_iff.mp h).2

theorem hasSub2_head (a b c y : Char) (ys : Str)
    (h : hasSub2 a b (c :: y :: ys) = false) : ¬(c = a ∧ y = b) := by
  rw [hasSub2] at h
  intro hc
  have h1 := (Bool.or_eq_false_iff.mp h).1
  simp [hc.1, hc.2] at h1

theorem hasSub2_append_space (a b : Char) (ha : a ≠ ' ') (hb : b ≠ ' ') :
    ∀ x y : Str, hasSub2 a b x = false → hasSub2 a b y = false →
      hasSub2 a b (x ++ ' ' :: y) = false := by
  intro x
  induction x with
  | nil =>
      intro y hx hy
      cases y with
      | nil => rfl
      | cons d ds =>
          show hasSub2 a b (' ' :: d :: ds) = false
          rw [hasSub2]
          have h1 : (' ' == a) = false := by simp [Ne.symm ha]
          rw [h1, Bool.false_and, Bool.false_or]
          exact hy
  | cons c cs ih =>
      intro y hx hy
      have hx' := hasSub2_tail a b c cs hx
      have hrest := ih y hx' hy
      cases cs with
      | nil =>
          show hasSub2 a b (c :: ' ' :: y) = false
          rw [hasSub2]
          have h2 : (' ' == b) = false := by simp [Ne.symm hb]
          rw [h2, Bool.and_false, Bool.false_or]
          simpa using hrest
      | cons c2 cs2 =>
          show hasSub2 a b (c :: c2 :: (cs2 ++ ' ' :: y)) = false
          rw [hasSub2]
          have hpair : (c == a && c2 == b) = false := by
            cases hca : c == a with
            | false => simp
            | true =>
                cases hcb : c2 == b with
                | false => simp
                | true =>
                    exact absurd ⟨eq_of_beq hca, eq_of_beq hcb⟩
                      (hasSub2_head a b c c2 cs2 hx)
          rw [hpair, Bool.false_or]
          simpa using hrest

/-- A field value that survives the encode/decode pipeline unchanged:
strip-invariant and free of the two-character sequences `\\` and `\,`
(which the decoder's second unescaping pass would collapse). -/
def goodVal (v : Str) : Prop :=
  pyStrip v = v ∧ hasSub2 '\\' '\\' v = false ∧ hasSub2 '\\' ',' v = false

/-- First/last names the `CN` first-space/last-space splitting can
reassemble: space-free and either both empty or both nonempty. -/
def goodName (f l : Str) : Prop :=
  (f = [] ∧ l = []) ∨ (f ≠ [] ∧ l ≠ [] ∧ ' ' ∉ f ∧ ' ' ∉ l)

/-- The identities whose DN round-trip the amended claim C1 asserts. -/
def goodDName (d : DNameInfo) : Prop :=
  goodVal d.first_name ∧ goodVal d.last_name ∧ goodVal d.organization_unit ∧
  goodVal d.organization ∧ goodVal d.city ∧ goodVal d.state ∧
  goodVal d.country_code ∧ goodName d.first_name d.last_name

theorem pyReplace2_eq_self_of_no_sub (a b : Char) (r v : Str)
    (h : hasSub2 a b v = false) : pyReplace2 a b r v = v := by
  induction v with
  | nil => rfl
  | cons x xs ih =>
      cases xs with
      | nil => rfl
      | cons y ys =>
          rw [pyReplace2, if_neg (hasSub2_head a b x y ys h)]
          rw [ih (hasSub2_tail a b x (y :: ys) h)]

theorem unescape_dn_eq_self_of_goodVal (v : Str) (h : goodVal v) :
    unescape_dn v = v := by
  unfold unescape_dn
  rw [pyReplace2_eq_self_of_no_sub _ _ _ _ h.2.2,
      pyReplace2_eq_self_of_no_sub _ _ _ _ h.2.1, h.1]

theorem splitDnGo_escDn (v : Str) :
    ∀ rest cur, splitDnGo (escDn v ++ rest) false cur = splitDnGo rest false (cur ++ v) := by
  induction v with
  | nil => intro rest cur; simp [escDn_nil]
  | cons c cs ih =>
      intro rest cur
      rw [escDn_cons]
      by_cases h1 : c = '\\'
      · subst h1
        rw [if_pos rfl]
        show splitDnGo ('\\' :: '\\' :: (escDn cs ++ rest)) false cur = _
        rw [splitDnGo_escape, ih rest (cur ++ ['\\'])]
        simp
      · by_cases h2 : c = ','
        · subst h2
          rw [if_neg h1, if_pos rfl]
          show splitDnGo ('\\' :: ',' :: (escDn cs ++ rest)) false cur = _
          rw [splitDnGo_escape, ih rest (cur ++ [','])]
          simp
        · rw [if_neg h1, if_neg h2]
          show splitDnGo (c :: (escDn cs ++ rest)) false cur = _
          rw [splitDnGo, if_neg Bool.false_ne_true, if_neg h1, if_neg h2,
            ih rest (cur ++ [c])]
          simp

theorem splitDnGo_comma (rest cur : Str) :
    splitDnGo (',' :: rest) false cur =
      (if pyStrip cur = [] then [] else [pyStrip cur]) ++ splitDnGo rest false [] := by
  simp [splitDnGo]

theorem splitDnGo_nil_flush (cur : Str) :
    splitDnGo [] false cur = if pyStrip cur = [] then [] else [pyStrip cur] := by
  simp [splitDnGo]

theorem lstrip_append_fixed (l t : Str) (h : lstrip l = l) (hne : l ≠ []) :
    lstrip (l ++ t) = l ++ t := by
  unfold lstrip at h ⊢
  rw [List.dropWhile_append, h, if_neg (by simp [hne])]

theorem takeWhile_append_all (p : Char → Bool) (l t : Str)
    (h : ∀ c ∈ l, p c = true) :
    (l ++ t).takeWhile p = l ++ t.takeWhile p := by
  induction l with
  | nil => rfl
  | cons c cs ih =>
      rw [List.cons_append, List.takeWhile_cons,
        if_pos (h c (List.mem_cons_self c cs)),
        ih (fun d hd => h d (List.mem_cons_of_mem c hd))]
      simp

theorem pyStrip_nospace_seg (c : Char) (l u : Str) (hc : isPySpace c = false)
    (hl : rstrip (c :: l) = c :: l) (hu : rstrip u = u) :
    pyStrip (c :: (l ++ u)) = c :: (l ++ u) := by
  unfold pyStrip
  rw [lstrip_cons_nonspace _ _ hc]
  by_cases hne : u = []
  · subst hne; simpa using hl
  · have := rstrip_append_of (c :: l) u hu hne
    simpa using this

theorem pyStrip_space_seg (c : Char) (l u : Str) (hc : isPySpace c = false)
    (hl : rstrip (c :: l) = c :: l) (hu : rstrip u = u) :
    pyStrip (' ' :: (c :: (l ++ u))) = c :: (l ++ u) := by
  unfold pyStrip
  rw [lstrip_cons_space _ _ (by decide), lstrip_cons_nonspace _ _ hc]
  by_cases hne : u = []
  · subst hne; simpa using hl
  · have := rstrip_append_of (c :: l) u hu hne
    simpa using this

/-- One `label ++ escaped-value ++ ","` block of the encoded DN, as seen
by `_split_dn`'s scan. -/
theorem splitDnGo_segment (lab v rest : Str)
    (hlab : ∀ c ∈ lab, c ≠ '\\' ∧ c ≠ ',') :
    splitDnGo (lab ++ (escDn v ++ ',' :: rest)) false [] =
      (if pyStrip (lab ++ v) = [] then [] else [pyStrip (lab ++ v)]) ++
        splitDnGo rest false [] := by
  rw [splitDnGo_plain lab hlab, splitDnGo_escDn v, splitDnGo_comma]
  simp

theorem splitDnGo_last (lab v : Str)
    (hlab : ∀ c ∈ lab, c ≠ '\\' ∧ c ≠ ',') :
    splitDnGo (lab ++ escDn v) false [] =
      if pyStrip (lab ++ v) = [] then [] else [pyStrip (lab ++ v)] := by
  have h1 : lab ++ escDn v = lab ++ (escDn v ++ []) := by simp
  rw [h1, splitDnGo_plain lab hlab, splitDnGo_escDn v, splitDnGo_nil_flush]
  simp

theorem random_dname_explicit (d : DNameInfo) :
    random_dname d =
      ['C', 'N', '='] ++ (escDn (commonName d) ++ ',' ::
      ([' ', 'O', 'U', '='] ++ (escDn d.organization_unit ++ ',' ::
      ([' ', 'O', '='] ++ (escDn d.organization ++ ',' ::
      ([' ', 'L', '='] ++ (escDn d.city ++ ',' ::
      ([' ', 'S', '='] ++ (escDn d.state ++ ',' ::
      ([' ', 'C', '='] ++ escDn d.country_code)))))))))) := by
  unfold random_dname
  simp only [List.append_assoc]
  rfl

/-- The optional stripped segment contributed by one `label ++ value`
block. -/
def dnSegOf (lab v : Str) : List Str :=
  if pyStrip (lab ++ v) = [] then [] else [pyStrip (lab ++ v)]

theorem split_dn_random_dname (d : DNameInfo) :
    split_dn (random_dname d) =
      dnSegOf ['C', 'N', '='] (commonName d) ++
      (dnSegOf [' ', 'O', 'U', '='] d.organization_unit ++
      (dnSegOf [' ', 'O', '='] d.organization ++
      (dnSegOf [' ', 'L', '='] d.city ++
      (dnSegOf [' ', 'S', '='] d.state ++
      dnSegOf [' ', 'C', '='] d.country_code)))) := by
  rw [split_dn, random_dname_explicit]
  rw [splitDnGo_segment _ _ _ (by decide)]
  rw [splitDnGo_segment _ _ _ (by decide)]
  rw [splitDnGo_segment _ _ _ (by decide)]
  rw [splitDnGo_segment _ _ _ (by decide)]
  rw [splitDnGo_segment _ _ _ (by decide)]
  rw [splitDnGo_last _ _ (by decide)]
  rfl

theorem buildParts_cons_label (k v : Str) (rest : List Str)
    (hk : ∀ c ∈ k, c ≠ '=') (hks : pyStrip k = k) (hv : unescape_dn v = v) :
    buildParts ((k ++ '=' :: v) :: rest) = (k, v) :: buildParts rest := by
  simp only [buildParts, splitEq1_label k v hk, hks, hv]

theorem dnFromParts_full (w u o l s c : Str) :
    dnFromParts [(['C', 'N'], w), (['O', 'U'], u), (['O'], o), (['L'], l),
        (['S'], s), (['C'], c)] =
      { first_name := if w = [] then [] else w.takeWhile (fun x => x ≠ ' ')
        last_name := if w = [] then []
          else (w.reverse.takeWhile (fun x => x ≠ ' ')).reverse
        organization_unit := u
        organization := o
        city := l
        state := s
        country_code := c } := by
  by_cases hs : s = [] <;>
    simp [dnFromParts, dictGetD, dictGet, pyOrS_none, pyOrS_some, hs]

theorem dnSegOf_space (c0 : Char) (lab v : Str) (hc : isPySpace c0 = false)
    (hr : rstrip (c0 :: lab) = c0 :: lab) (hv : rstrip v = v) :
    dnSegOf (' ' :: c0 :: lab) v = [c0 :: (lab ++ v)] := by
  unfold dnSegOf
  have h2 := pyStrip_space_seg c0 lab v hc hr hv
  simp only [List.cons_append, List.nil_append] at h2 ⊢
  rw [h2]
  simp

theorem dnSegOf_nospace (c0 : Char) (lab v : Str) (hc : isPySpace c0 = false)
    (hr : rstrip (c0 :: lab) = c0 :: lab) (hv : rstrip v = v) :
    dnSegOf (c0 :: lab) v = [c0 :: (lab ++ v)] := by
  unfold dnSegOf
  have h2 := pyStrip_nospace_seg c0 lab v hc hr hv
  simp only [List.cons_append, List.nil_append] at h2 ⊢
  rw [h2]
  simp

theorem buildParts_CN (w : Str) (rest : List Str) (hv : unescape_dn w = w) :
    buildParts (('C' :: 'N' :: '=' :: w) :: rest) =
      (['C', 'N'], w) :: buildParts rest := by
  have := buildParts_cons_label ['C', 'N'] w rest (by decide) (by decide) hv
  simpa using this

theorem buildParts_OU (w : Str) (rest : List Str) (hv : unescape_dn w = w) :
    buildParts (('O' :: 'U' :: '=' :: w) :: rest) =
      (['O', 'U'], w) :: buildParts rest := by
  have := buildParts_cons_label ['O', 'U'] w rest (by decide) (by decide) hv
  simpa using this

theorem buildParts_O (w : Str) (rest : List Str) (hv : unescape_dn w = w) :
    buildParts (('O' :: '=' :: w) :: rest) = (['O'], w) :: buildParts rest := by
  have := buildParts_cons_label ['O'] w rest (by decide) (by decide) hv
  simpa using this

theorem buildParts_L (w : Str) (rest : List Str) (hv : unescape_dn w = w) :
    buildParts (('L' :: '=' :: w) :: rest) = (['L'], w) :: buildParts rest := by
  have := buildParts_cons_label ['L'] w rest (by decide) (by decide) hv
  simpa using this

theorem buildParts_S (w : Str) (rest : List Str) (hv : unescape_dn w = w) :
    buildParts (('S' :: '=' :: w) :: rest) = (['S'], w) :: buildParts rest := by
  have := buildParts_cons_label ['S'] w rest (by decide) (by decide) hv
  simpa using this

theorem buildParts_C (w : Str) (rest : List Str) (hv : unescape_dn w = w) :
    buildParts (('C' :: '=' :: w) :: rest) = (['C'], w) :: buildParts rest := by
  have := buildParts_cons_label ['C'] w rest (by decide) (by decide) hv
  simpa using this

theorem dn_round_trip_aux (f l u o ci st cc w : Str)
    (hu : goodVal u) (ho : goodVal o) (hci : goodVal ci) (hst : goodVal st)
    (hcc : goodVal cc)
    (hseg1 : dnSegOf ['C', 'N', '='] (f ++ ' ' :: l) = ['C' :: 'N' :: '=' :: w])
    (hwun : unescape_dn w = w)
    (hwf : (if w = [] then [] else w.takeWhile (fun x => x ≠ ' ')) = f)
    (hwl : (if w = [] then []
            else (w.reverse.takeWhile (fun x => x ≠ ' ')).reverse) = l) :
    decode_dn (random_dname ⟨f, l, u, o, ci, st, cc⟩) =
      some ⟨f, l, u, o, ci, st, cc⟩ := by
  have huF := strip_fixes_of_pyStrip _ hu.1
  have hoF := strip_fixes_of_pyStrip _ ho.1
  have hciF := strip_fixes_of_pyStrip _ hci.1
  have hstF := strip_fixes_of_pyStrip _ hst.1
  have hccF := strip_fixes_of_pyStrip _ hcc.1
  have hsplit : split_dn (random_dname ⟨f, l, u, o, ci, st, cc⟩) =
      ('C' :: 'N' :: '=' :: w) :: ('O' :: 'U' :: '=' :: u) :: ('O' :: '=' :: o) ::
      ('L' :: '=' :: ci) :: ('S' :: '=' :: st) :: ('C' :: '=' :: cc) :: [] := by
    rw [split_dn_random_dname]
    rw [show commonName ⟨f, l, u, o, ci, st, cc⟩ = f ++ ' ' :: l from rfl]
    rw [hseg1,
        dnSegOf_space 'O' ['U', '='] u (by decide) (by decide) huF.2,
        dnSegOf_space 'O' ['='] o (by decide) (by decide) hoF.2,
        dnSegOf_space 'L' ['='] ci (by decide) (by decide) hciF.2,
        dnSegOf_space 'S' ['='] st (by decide) (by decide) hstF.2,
        dnSegOf_space 'C' ['='] cc (by decide) (by decide) hccF.2]
    simp
  have hparts : dnParts (random_dname ⟨f, l, u, o, ci, st, cc⟩) =
      [(['C', 'N'], w), (['O', 'U'], u), (['O'], o), (['L'], ci),
       (['S'], st), (['C'], cc)] := by
    unfold dnParts
    rw [hsplit, buildParts_CN _ _ hwun,
        buildParts_OU _ _ (unescape_dn_eq_self_of_goodVal u hu),
        buildParts_O _ _ (unescape_dn_eq_self_of_goodVal o ho),
        buildParts_L _ _ (unescape_dn_eq_self_of_goodVal ci hci),
        buildParts_S _ _ (unescape_dn_eq_self_of_goodVal st hst),
        buildParts_C _ _ (unescape_dn_eq_self_of_goodVal cc hcc)]
    rfl
  have hne : random_dname ⟨f, l, u, o, ci, st, cc⟩ ≠ [] := by
    rw [random_dname_explicit]; simp
  unfold decode_dn
  rw [if_neg hne, hparts, if_neg (by simp), dnFromParts_full]
  refine congrArg some ?_
  simp only [DNameInfo.mk.injEq, and_true, eq_self_iff_true]
  constructor
  · simpa using hwf
  · simpa using hwl

/-- C1 (amended): `Decode (Encode i) = i` for every identity whose fields
are strip-invariant and contain neither `\\` nor `\,` as a two-character
subsequence, and whose first/last names are space-free and either both
empty or both nonempty.  (The counterexample below shows the unrestricted
claim is false.) -/
theorem dn_round_trip (d : DNameInfo) (h : goodDName d) :
    decode_dn (random_dname d) = some d := by
  obtain ⟨f, l, u, o, ci, st, cc⟩ := d
  obtain ⟨hf, hl, hu, ho, hci, hst, hcc, hn⟩ := h
  rcases hn with ⟨hf0, hl0⟩ | ⟨hfne, hlne, hfsp, hlsp⟩
  · subst hf0; subst hl0
    exact dn_round_trip_aux [] [] u o ci st cc [] hu ho hci hst hcc
      (by decide) (by decide) rfl rfl
  · have hfF := strip_fixes_of_pyStrip _ hf.1
    have hlF := strip_fixes_of_pyStrip _ hl.1
    have hcnR : rstrip (f ++ ' ' :: l) = f ++ ' ' :: l := by
      have := rstrip_append_of (f ++ [' ']) l hlF.2 hlne
      simpa using this
    refine dn_round_trip_aux f l u o ci st cc (f ++ ' ' :: l)
      hu ho hci hst hcc ?_ ?_ ?_ ?_
    · have := dnSegOf_nospace 'C' ['N', '='] (f ++ ' ' :: l)
        (by decide) (by decide) hcnR
      simpa using this
    · apply unescape_dn_eq_self_of_goodVal
      refine ⟨?_, ?_, ?_⟩
      · have hcnL : lstrip (f ++ ' ' :: l) = f ++ ' ' :: l :=
          lstrip_append_fixed f (' ' :: l) hfF.1 hfne
        rw [pyStrip, hcnL, hcnR]
      · exact hasSub2_append_space '\\' '\\' (by decide) (by decide) f l
          hf.2.1 hl.2.1
      · exact hasSub2_append_space '\\' ',' (by decide) (by decide) f l
          hf.2.2 hl.2.2
    · rw [if_neg (by simp)]
      rw [takeWhile_append_all _ f (' ' :: l)
        (fun c hc => by
          have hcne : c ≠ ' ' := fun he => hfsp (he ▸ hc)
          simpa using hcne)]
      rw [List.takeWhile_cons, if_neg (by simp)]
      simp
    · rw [if_neg (by simp)]
      have hrev : (f ++ ' ' :: l).reverse = l.reverse ++ ' ' :: f.reverse := by
        simp
      rw [hrev, takeWhile_append_all _ l.reverse (' ' :: f.reverse)
        (fun c hc => by
          have hcm : c ∈ l := List.mem_reverse.mp hc
          have hcne : c ≠ ' ' := fun he => hlsp (he ▸ hcm)
          simpa using hcne)]
      rw [List.takeWhile_cons, if_neg (by simp)]
      simp

/-- Witness for `dn_round_trip`: a concrete identity with empty fields and
values containing a literal comma and a literal backslash round-trips. -/
theorem dn_round_trip_witness :
    decode_dn (random_dname ⟨"John".toList, "Smith".toList, "R&D".toList,
        "Acme, Inc.".toList, "Pa\\ris".toList, [], "US".toList⟩) =
      some ⟨"John".toList, "Smith".toList, "R&D".toList,
        "Acme, Inc.".toList, "Pa\\ris".toList, [], "US".toList⟩ :=
  dn_round_trip _
    ⟨⟨by decide, by decide, by decide⟩, ⟨by decide, by decide, by decide⟩,
     ⟨by decide, by decide, by decide⟩, ⟨by decide, by decide, by decide⟩,
     ⟨by decide, by decide, by decide⟩, ⟨by decide, by decide, by decide⟩,
     ⟨by decide, by decide, by decide⟩,
     Or.inr ⟨by decide, by decide, by decide, by decide⟩⟩

/-- C1, counterexample to the claim as stated: the identity with first
name `A` and all other fields empty does not round-trip — decoding the
encoded DN yields last name `A` as well (the `CN` value `A ` strips to `A`
and the last-space split returns the whole token). -/
theorem dn_round_trip_counterexample :
    decode_dn (random_dname ⟨['A'], [], [], [], [], [], []⟩) ≠
      some ⟨['A'], [], [], [], [], [], []⟩ := by
  decide

/-! ## C8: two-line caption short-circuit -/

theorem parse_alias_password_eq (cap a b : Str) (rest : List Str)
    (h : ((pySplitlines cap).map pyStrip).filter (fun l => l ≠ []) = a :: b :: rest) :
    parse_alias_password cap = (some a, some b) := by
  unfold parse_alias_password
  rw [h]

/-- C8: an uploaded document whose caption has at least two non-blank
lines goes straight to `_process_request` with the first two stripped
non-blank lines as alias and password; no prompt is sent and no awaiting
state is entered (those are the `askAlias`/`askPassword` outcomes). -/
theorem document_handler_short_circuit (fid : Str) (fn : Option Str)
    (cap a b : Str) (rest : List Str)
    (h : ((pySplitlines cap).map pyStrip).filter (fun l => l ≠ []) = a :: b :: rest) :
    document_handler fid fn (some cap) =
      .process ⟨fid, pyOrS fn "keystore.jks".toList, some a, some b⟩ := by
  have ha : a ≠ [] := by
    have hm : a ∈ ((pySplitlines cap).map pyStrip).filter (fun l => l ≠ []) := by
      rw [h]; exact List.mem_cons_self a (b :: rest)
    have := (List.mem_filter.mp hm).2
    simpa using this
  have hb : b ≠ [] := by
    have hm : b ∈ ((pySplitlines cap).map pyStrip).filter (fun l => l ≠ []) := by
      rw [h]; exact List.mem_cons_of_mem a (List.mem_cons_self b rest)
    have := (List.mem_filter.mp hm).2
    simpa using this
  unfold document_handler
  simp only [Option.getD_some]
  rw [parse_alias_password_eq cap a b rest h]
  rw [if_neg (by simp [pyTruthyOpt, ha]), if_neg (by simp [pyTruthyOpt, hb])]

/-- Witness for `document_handler_short_circuit`: the spec's own example
caption `mykey\nsecret123`. -/
theorem document_handler_short_circuit_witness :
    document_handler "fid".toList (some "cert.jks".toList)
        (some "mykey\nsecret123".toList) =
      .process ⟨"fid".toList, pyOrS (some "cert.jks".toList) "keystore.jks".toList,
        some "mykey".toList, some "secret123".toList⟩ :=
  document_handler_short_circuit "fid".toList (some "cert.jks".toList)
    "mykey\nsecret123".toList "mykey".toList "secret123".toList [] (by decide)

/-! ## C6: archival disambiguation -/

/-- Digit value, inverse to `digitChar` below 10. -/
def charDigit (c : Char) : Nat :=
  if c = '0' then 0 else if c = '1' then 1 else if c = '2' then 2
  else if c = '3' then 3 else if c = '4' then 4 else if c = '5' then 5
  else if c = '6' then 6 else if c = '7' then 7 else if c = '8' then 8
  else if c = '9' then 9 else 0

/-- Numeric value of a little-endian digit string. -/
def natValRev : Str → Nat
  | [] => 0
  | c :: r => charDigit c + 10 * natValRev r

theorem charDigit_digitChar (d : Nat) (h : d < 10) :
    charDigit (digitChar d) = d := by
  interval_cases d <;> rfl

theorem natDigitsRevGo_irrel (n : Nat) :
    ∀ fuel1 fuel2, n ≤ fuel1 → n ≤ fuel2 →
      natDigitsRevGo fuel1 n = natDigitsRevGo fuel2 n := by
  induction n using Nat.strong_induction_on with
  | _ n ih =>
      intro fuel1 fuel2 h1 h2
      by_cases hn : n = 0
      · subst hn
        cases fuel1 <;> cases fuel2 <;> simp [natDigitsRevGo]
      · obtain ⟨f1, rfl⟩ : ∃ f1, fuel1 = f1 + 1 :=
          ⟨fuel1 - 1, by omega⟩
        obtain ⟨f2, rfl⟩ : ∃ f2, fuel2 = f2 + 1 :=
          ⟨fuel2 - 1, by omega⟩
        rw [natDigitsRevGo, natDigitsRevGo, if_neg hn, if_neg hn]
        have hdiv : n / 10 < n := Nat.div_lt_self (Nat.pos_of_ne_zero hn) (by decide)
        rw [ih (n / 10) hdiv f1 f2 (by omega) (by omega)]

theorem natDigitsRev_succ_eq (n : Nat) (hn : n ≠ 0) :
    natDigitsRev n = digitChar (n % 10) :: natDigitsRev (n / 10) := by
  unfold natDigitsRev
  obtain ⟨m, rfl⟩ : ∃ m, n = m + 1 := ⟨n - 1, by omega⟩
  rw [natDigitsRevGo, if_neg hn]
  have hdiv : (m + 1) / 10 < m + 1 := Nat.div_lt_self (by omega) (by decide)
  rw [natDigitsRevGo_irrel ((m + 1) / 10) m ((m + 1) / 10) (by omega) (by omega)]

theorem natValRev_natDigitsRev (n : Nat) : natValRev (natDigitsRev n) = n := by
  induction n using Nat.strong_induction_on with
  | _ n ih =>
      by_cases hn : n = 0
      · subst hn; rfl
      · rw [natDigitsRev_succ_eq n hn, natValRev]
        have hdiv : n / 10 < n := Nat.div_lt_self (Nat.pos_of_ne_zero hn) (by decide)
        rw [ih (n / 10) hdiv, charDigit_digitChar (n % 10) (Nat.mod_lt n (by decide))]
        omega

theorem natDigitsRev_ne_nil (n : Nat) (hn : n ≠ 0) : natDigitsRev n ≠ [] := by
  rw [natDigitsRev_succ_eq n hn]
  exact List.cons_ne_nil _ _

theorem natRepr_ne_nil (n : Nat) : natRepr n ≠ [] := by
  unfold natRepr
  by_cases hn : n = 0
  · rw [if_pos hn]; exact List.cons_ne_nil _ _
  · rw [if_neg hn]
    intro h
    exact natDigitsRev_ne_nil n hn (by simpa using congrArg List.reverse h)

theorem natRepr_inj (m n : Nat) (h : natRepr m = natRepr n) : m = n := by
  unfold natRepr at h
  by_cases hm : m = 0 <;> by_cases hn : n = 0
  · omega
  · rw [if_pos hm, if_neg hn] at h
    have hd : natDigitsRev n = ['0'] := by
      have := congrArg List.reverse h
      simpa using this.symm
    have := natValRev_natDigitsRev n
    rw [hd] at this
    simp [natValRev, charDigit] at this
    omega
  · rw [if_neg hm, if_pos hn] at h
    have hd : natDigitsRev m = ['0'] := by
      have := congrArg List.reverse h
      simpa using this
    have := natValRev_natDigitsRev m
    rw [hd] at this
    simp [natValRev, charDigit] at this
    omega
  · rw [if_neg hm, if_neg hn] at h
    have hd : natDigitsRev m = natDigitsRev n := by
      have := congrArg List.reverse h
      simpa using this
    have h1 := natValRev_natDigitsRev m
    rw [hd, natValRev_natDigitsRev n] at h1
    omega

theorem old_dir_cand_inj (b : Str) (i j : Nat)
    (h : old_dir_cand b i = old_dir_cand b j) : i = j := by
  unfold old_dir_cand ospJoin at h
  have h1 := List.append_cancel_left h
  have h2 : b ++ '-' :: natRepr i = b ++ '-' :: natRepr j := by
    injection h1
  have h3 := List.append_cancel_left h2
  have h4 : natRepr i = natRepr j := by injection h3
  exact natRepr_inj i j h4

theorem old_dir_base_ne_cand (b : Str) (i : Nat) :
    old_dir_base b ≠ old_dir_cand b i := by
  intro h
  unfold old_dir_base old_dir_cand ospJoin at h
  have h1 := List.append_cancel_left h
  have h2 : b = b ++ '-' :: natRepr i := by injection h1
  have h3 := congrArg List.length h2
  simp at h3

theorem nextOldGo_spec (existing : List Str) (b : Str) :
    ∀ (fuel idx : Nat), (∃ j, j < fuel ∧ old_dir_cand b (idx + j) ∉ existing) →
      nextOldGo existing b idx fuel ∉ existing ∧
      ∃ j, j < fuel ∧ nextOldGo existing b idx fuel = old_dir_cand b (idx + j) ∧
        ∀ k, k < j → old_dir_cand b (idx + k) ∈ existing := by
  intro fuel
  induction fuel with
  | zero =>
      intro idx ⟨j, hj, _⟩
      exact absurd hj (by omega)
  | succ f ih =>
      intro idx ⟨j, hj, hfree⟩
      by_cases hmem : old_dir_cand b idx ∈ existing
      · rw [nextOldGo, if_pos hmem]
        have hj0 : j ≠ 0 := by
          rintro rfl
          exact hfree (by simpa using hmem)
        have hex' : ∃ j2, j2 < f ∧ old_dir_cand b (idx + 1 + j2) ∉ existing := by
          refine ⟨j - 1, by omega, ?_⟩
          rw [show idx + 1 + (j - 1) = idx + j by omega]
          exact hfree
        obtain ⟨h1, j2, hj2, heq, hall⟩ := ih (idx + 1) hex'
        refine ⟨h1, j2 + 1, by omega, ?_, ?_⟩
        · rw [heq]
          congr 1
          omega
        · intro k hk
          cases k with
          | zero => simpa using hmem
          | succ k' =>
              have := hall k' (by omega)
              rw [show idx + (k' + 1) = idx + 1 + k' by omega]
              exact this
      · rw [nextOldGo, if_neg hmem]
        exact ⟨hmem, 0, by omega, by simp, fun k hk => absurd hk (by omega)⟩

theorem exists_free_cand (existing : List Str) (b : Str) :
    ∃ j, j < existing.length + 1 ∧ old_dir_cand b (1 + j) ∉ existing := by
  by_contra hall
  push_neg at hall
  have hinj : Function.Injective (fun j : Nat => old_dir_cand b (1 + j)) := by
    intro x y hxy
    have := old_dir_cand_inj b (1 + x) (1 + y) hxy
    omega
  have hsub : ((List.range (existing.length + 1)).map
      (fun j => old_dir_cand b (1 + j))) ⊆ existing := by
    intro x hx
    simp only [List.mem_map, List.mem_range] at hx
    obtain ⟨j, hj, rfl⟩ := hx
    exact hall j hj
  have hnd : ((List.range (existing.length + 1)).map
      (fun j => old_dir_cand b (1 + j))).Nodup :=
    (List.nodup_range _).map hinj
  have hlen := (List.subperm_of_subset hnd hsub).length_le
  simp at hlen

/-- C6: `_next_old_project_dir` returns a path that does not yet exist —
the unsuffixed archive name when free, otherwise `base-i` at the smallest
free index `i ≥ 1` — therefore archiving the same base name twice (the
first archive directory now existing) picks two distinct directories and
never overwrites an existing archive; and `_archive_existing_project`
never destroys data (every content tag survives it). -/
theorem next_old_project_dir_spec (existing : List Str) (b : Str) :
    (next_old_project_dir existing b ∉ existing) ∧
    (old_dir_base b ∉ existing →
      next_old_project_dir existing b = old_dir_base b) ∧
    (old_dir_base b ∈ existing →
      ∃ i, 1 ≤ i ∧ next_old_project_dir existing b = old_dir_cand b i ∧
        old_dir_cand b i ∉ existing ∧
        ∀ k, 1 ≤ k → k < i → old_dir_cand b k ∈ existing) ∧
    (∀ existing2 : List Str, next_old_project_dir existing b ∈ existing2 →
      next_old_project_dir existing2 b ≠ next_old_project_dir existing b) ∧
    (∀ fs : FS, ∀ t ∈ fs.entries.map (fun e => e.2),
      t ∈ (archiveFS fs b).entries.map (fun e => e.2)) := by
  have main : ∀ E : List Str,
      next_old_project_dir E b ∉ E ∧
      (old_dir_base b ∉ E → next_old_project_dir E b = old_dir_base b) ∧
      (old_dir_base b ∈ E →
        ∃ i, 1 ≤ i ∧ next_old_project_dir E b = old_dir_cand b i ∧
          old_dir_cand b i ∉ E ∧
          ∀ k, 1 ≤ k → k < i → old_dir_cand b k ∈ E) := by
    intro E
    unfold next_old_project_dir
    by_cases hb : old_dir_base b ∈ E
    · rw [if_pos hb]
      obtain ⟨h1, j, hj, heq, hall⟩ :=
        nextOldGo_spec E b (E.length + 1) 1 (exists_free_cand E b)
      refine ⟨h1, fun hc => absurd hb hc,
        fun _ => ⟨1 + j, by omega, heq, heq ▸ h1, ?_⟩⟩
      intro k hk1 hki
      have := hall (k - 1) (by omega)
      rw [show 1 + (k - 1) = k by omega] at this
      exact this
    · rw [if_neg hb]
      exact ⟨hb, fun _ => rfl, fun hc => absurd hc hb⟩
  refine ⟨(main existing).1, (main existing).2.1, (main existing).2.2, ?_, ?_⟩
  · intro existing2 hmem heq
    exact (main existing2).1 (heq ▸ hmem)
  · intro fs t ht
    unfold archiveFS
    by_cases hex : fs.existsPath (project_dir b)
    · rw [if_pos hex]
      unfold fsReplace fsMakedirs
      by_cases hg : fs.existsPath GENERATED_OLD_DIR
      · rw [if_pos hg]
        simpa [List.map_map, Function.comp] using ht
      · rw [if_neg hg]
        simp only [List.map_map, List.map_cons, Function.comp]
        exact List.mem_cons_of_mem _ (by simpa [Function.comp] using ht)
    · rw [if_neg hex]
      exact ht

/-- Witness for `next_old_project_dir_spec`: concrete archive states. -/
theorem next_old_project_dir_spec_witness :
    (next_old_project_dir [] "app".toList = old_dir_base "app".toList) ∧
    (∃ i, 1 ≤ i ∧
      next_old_project_dir ["generated_old/app".toList] "app".toList =
        old_dir_cand "app".toList i ∧
      old_dir_cand "app".toList i ∉ ["generated_old/app".toList] ∧
      ∀ k, 1 ≤ k → k < i →
        old_dir_cand "app".toList k ∈ ["generated_old/app".toList]) ∧
    (next_old_project_dir
        ["generated_old/app".toList, "generated_old/app-1".toList] "app".toList ≠
      next_old_project_dir ["generated_old/app".toList] "app".toList) ∧
    (5 ∈ (archiveFS ⟨[("generated/app".toList, 5)]⟩ "app".toList).entries.map
      (fun e => e.2)) :=
  ⟨(next_old_project_dir_spec [] "app".toList).2.1 (by decide),
   (next_old_project_dir_spec ["generated_old/app".toList] "app".toList).2.2.1
     (by decide),
   (next_old_project_dir_spec ["generated_old/app".toList] "app".toList).2.2.2.1
     ["generated_old/app".toList, "generated_old/app-1".toList] (by decide),
   (next_old_project_dir_spec [] "app".toList).2.2.2.2
     ⟨[("generated/app".toList, 5)]⟩ 5 (by decide)⟩

/-! ## C2: pipeline filesystem states -/

theorem gen_old_ne_gen (x y : Str) :
    ospJoin GENERATED_OLD_DIR x ≠ ospJoin GENERATED_DIR y := by
  intro h
  have h9 : (ospJoin GENERATED_OLD_DIR x).get? 9 =
      (ospJoin GENERATED_DIR y).get? 9 := by rw [h]
  have hc : some '_' = some '/' := h9
  exact absurd hc (by decide)

theorem project_file_shape (b x : Str) :
    ospJoin (project_dir b) x = ospJoin GENERATED_DIR (b ++ '/' :: x) := by
  simp [ospJoin, project_dir]

theorem project_dir_ne_child (b x : Str) :
    project_dir b ≠ ospJoin (project_dir b) x := by
  intro h
  have := congrArg List.length h
  simp [ospJoin] at this

theorem movePath_project_child (b old x : Str) :
    movePath (project_dir b) old (ospJoin (project_dir b) x) =
      old ++ '/' :: x := by
  unfold movePath
  rw [if_neg (fun h => project_dir_ne_child b x h.symm), if_pos]
  · rw [show ospJoin (project_dir b) x = project_dir b ++ ('/' :: x) from rfl]
    rw [List.drop_left]
  · apply List.isPrefixOf_iff_prefix.mpr
    exact ⟨x, by simp [ospJoin]⟩

theorem movePath_ne_child (b old q x : Str)
    (hold : ∃ y, old = ospJoin GENERATED_OLD_DIR y) :
    movePath (project_dir b) old q ≠ ospJoin (project_dir b) x := by
  obtain ⟨y, rfl⟩ := hold
  unfold movePath
  by_cases h1 : q = project_dir b
  · rw [if_pos h1, project_file_shape]
    exact gen_old_ne_gen y (b ++ '/' :: x)
  · rw [if_neg h1]
    by_cases h2 : (project_dir b ++ ['/']).isPrefixOf q
    · rw [if_pos h2]
      rw [show ospJoin GENERATED_OLD_DIR y ++ q.drop (project_dir b).length =
          ospJoin GENERATED_OLD_DIR (y ++ q.drop (project_dir b).length) from by
        simp [ospJoin]]
      rw [project_file_shape]
      exact gen_old_ne_gen _ _
    · rw [if_neg h2]
      intro hq
      apply h2
      rw [hq]
      apply List.isPrefixOf_iff_prefix.mpr
      exact ⟨x, by simp [ospJoin]⟩

theorem old_path_ne_child (b x x' y : Str) :
    ospJoin GENERATED_OLD_DIR y ++ '/' :: x' ≠ ospJoin (project_dir b) x := by
  rw [show ospJoin GENERATED_OLD_DIR y ++ '/' :: x' =
      ospJoin GENERATED_OLD_DIR (y ++ '/' :: x') from by simp [ospJoin]]
  rw [project_file_shape]
  exact gen_old_ne_gen _ _

theorem fsMakedirs_mem (fs : FS) (p : Str) (e : Str × Nat)
    (h : e ∈ fs.entries) : e ∈ (fsMakedirs fs p).entries := by
  unfold fsMakedirs
  by_cases he : fs.existsPath p
  · rw [if_pos he]; exact h
  · rw [if_neg he]; exact List.mem_cons_of_mem _ h

theorem fsReplace_mem (fs : FS) (src dst : Str) (e : Str × Nat)
    (h : e ∈ fs.entries) :
    (movePath src dst e.1, e.2) ∈ (fsReplace fs src dst).entries :=
  List.mem_map_of_mem _ h

theorem fsWrite_mem_of_ne (fs : FS) (p : Str) (t : Nat) (e : Str × Nat)
    (h : e ∈ fs.entries) (hne : e.1 ≠ p) :
    e ∈ (fsWrite fs p t).entries :=
  List.mem_cons_of_mem _ (List.mem_filter.mpr ⟨h, by simpa using hne⟩)

theorem fsWrite_mem_self (fs : FS) (p : Str) (t : Nat) :
    (p, t) ∈ (fsWrite fs p t).entries :=
  List.mem_cons_self _ _

theorem existsPath_of_mem (fs : FS) (e : Str × Nat) (h : e ∈ fs.entries) :
    fs.existsPath e.1 = true := by
  unfold FS.existsPath
  rw [List.any_eq_true]
  exact ⟨e, h, by simp⟩

theorem fsReplace_existsPath_child_false (fs : FS) (b old x : Str)
    (hold : ∃ y, old = ospJoin GENERATED_OLD_DIR y) :
    (fsReplace fs (project_dir b) old).existsPath (ospJoin (project_dir b) x) =
      false := by
  unfold fsReplace FS.existsPath
  rw [List.any_eq_false]
  intro e he
  simp only [List.mem_map] at he
  obtain ⟨e0, _, rfl⟩ := he
  simpa using movePath_ne_child b old e0.1 x hold

theorem fsMakedirs_existsPath_false (fs : FS) (p p' : Str)
    (h : fs.existsPath p' = false) (hne : p ≠ p') :
    (fsMakedirs fs p).existsPath p' = false := by
  unfold fsMakedirs
  by_cases he : fs.existsPath p
  · rw [if_pos he]; exact h
  · rw [if_neg he]
    unfold FS.existsPath at h ⊢
    simp only [List.any_cons, h, Bool.or_false]
    simpa using hne

theorem next_old_shape (E : List Str) (b : Str) :
    ∃ x, next_old_project_dir E b = ospJoin GENERATED_OLD_DIR x := by
  unfold next_old_project_dir
  by_cases hb : old_dir_base b ∈ E
  · rw [if_pos hb]
    obtain ⟨_, j, _, heq, _⟩ :=
      nextOldGo_spec E b (E.length + 1) 1 (exists_free_cand E b)
    exact ⟨b ++ '-' :: natRepr (1 + j), heq⟩
  · rw [if_neg hb]
    exact ⟨b, rfl⟩

theorem ospJoin_ne_of_ne (p x y : Str) (h : x ≠ y) : ospJoin p x ≠ ospJoin p y := by
  intro he
  unfold ospJoin at he
  have h1 := List.append_cancel_left he
  exact h (by injection h1)

theorem append_suffix_ne (b suf tgt : Str) (hlen : suf ≠ [])
    (h0 : (suf.reverse).get? 0 ≠ (tgt.reverse).get? 0) : b ++ suf ≠ tgt := by
  intro he
  apply h0
  have hge := congrArg (fun z : Str => z.reverse.get? 0) he
  simp only [List.reverse_append] at hge
  rw [← hge]
  cases hs : suf.reverse with
  | nil => exact absurd (by simpa using hs) hlen
  | cons c cs => simp [hs]

/-- The filesystem states of a successful fresh-generation run over an
existing complete project, named for use in the statement below:
after the conditional archive (`freshS2`), and after each of the four
writes (`freshS3` … `freshS6`). -/
def freshS2 (fs0 : FS) (b : Str) : FS :=
  fsMakedirs (archiveFS fs0 b) (project_dir b)

def freshS3 (fs0 : FS) (b : Str) (q : GenParams) : FS :=
  fsWrite (freshS2 fs0 b) (jks_path b) q.tJks

def freshS4 (fs0 : FS) (b : Str) (q : GenParams) : FS :=
  fsWrite (freshS3 fs0 b q) (pem_path b) q.tPem

def freshS5 (fs0 : FS) (b : Str) (q : GenParams) : FS :=
  fsWrite (freshS4 fs0 b q) (info_path b) q.tInfo

def freshS6 (fs0 : FS) (b : Str) (q : GenParams) : FS :=
  fsWrite (freshS5 fs0 b q) (user_path b) q.tUser

/-- C2 (amended): on the fresh-generation path over an existing complete
project, the whole prior artifact set is moved to the archive directory
before any new artifact is written (in the post-archive state the four
prior files live under the archive target and the project file paths are
gone), the archived entries survive to the end of a successful run with
their content intact, and the successful run ends with a complete new
artifact set.  (The counterexample below shows the claim as stated — no
partially populated project directory at any point — is false: the
directory is created empty before generation.) -/
theorem process_fresh_archival (fs0 : FS) (pkg : Str) (q : GenParams)
    (t1 t2 t3 t4 : Nat)
    (hgen : q.genOk = true) (hexp : q.exportOk = true)
    (hdir : fs0.existsPath (project_dir (sanitize_name pkg)) = true)
    (hjks : (jks_path (sanitize_name pkg), t1) ∈ fs0.entries)
    (hpem : (pem_path (sanitize_name pkg), t2) ∈ fs0.entries)
    (hinfo : (info_path (sanitize_name pkg), t3) ∈ fs0.entries)
    (huser : (user_path (sanitize_name pkg), t4) ∈ fs0.entries) :
    processFreshStates fs0 pkg q =
      [fs0, fs0, freshS2 fs0 (sanitize_name pkg),
       freshS3 fs0 (sanitize_name pkg) q, freshS4 fs0 (sanitize_name pkg) q,
       freshS5 fs0 (sanitize_name pkg) q, freshS6 fs0 (sanitize_name pkg) q] ∧
    ((archiveTarget fs0 (sanitize_name pkg) ++
        '/' :: (sanitize_name pkg ++ ".jks".toList), t1) ∈
          (freshS2 fs0 (sanitize_name pkg)).entries ∧
     (archiveTarget fs0 (sanitize_name pkg) ++
        '/' :: (sanitize_name pkg ++ ".pem".toList), t2) ∈
          (freshS2 fs0 (sanitize_name pkg)).entries ∧
     (archiveTarget fs0 (sanitize_name pkg) ++ '/' :: "info.txt".toList, t3) ∈
          (freshS2 fs0 (sanitize_name pkg)).entries ∧
     (archiveTarget fs0 (sanitize_name pkg) ++ '/' :: "user.txt".toList, t4) ∈
          (freshS2 fs0 (sanitize_name pkg)).entries) ∧
    ((freshS2 fs0 (sanitize_name pkg)).existsPath
        (jks_path (sanitize_name pkg)) = false ∧
     (freshS2 fs0 (sanitize_name pkg)).existsPath
        (pem_path (sanitize_name pkg)) = false) ∧
    ((archiveTarget fs0 (sanitize_name pkg) ++
        '/' :: (sanitize_name pkg ++ ".jks".toList), t1) ∈
          (freshS6 fs0 (sanitize_name pkg) q).entries ∧
     (archiveTarget fs0 (sanitize_name pkg) ++
        '/' :: (sanitize_name pkg ++ ".pem".toList), t2) ∈
          (freshS6 fs0 (sanitize_name pkg) q).entries ∧
     (archiveTarget fs0 (sanitize_name pkg) ++ '/' :: "info.txt".toList, t3) ∈
          (freshS6 fs0 (sanitize_name pkg) q).entries ∧
     (archiveTarget fs0 (sanitize_name pkg) ++ '/' :: "user.txt".toList, t4) ∈
          (freshS6 fs0 (sanitize_name pkg) q).entries) ∧
    ((freshS6 fs0 (sanitize_name pkg) q).existsPath
        (jks_path (sanitize_name pkg)) = true ∧
     (freshS6 fs0 (sanitize_name pkg) q).existsPath
        (pem_path (sanitize_name pkg)) = true ∧
     (freshS6 fs0 (sanitize_name pkg) q).existsPath
        (info_path (sanitize_name pkg)) = true ∧
     (freshS6 fs0 (sanitize_name pkg) q).existsPath
        (user_path (sanitize_name pkg)) = true) := by
  set b := sanitize_name pkg with hb
  have hold : ∃ y, archiveTarget fs0 b = ospJoin GENERATED_OLD_DIR y :=
    next_old_shape _ b
  have harch2 : ∀ (p : Str) (t : Nat), (ospJoin (project_dir b) p, t) ∈ fs0.entries →
      (archiveTarget fs0 b ++ '/' :: p, t) ∈ (freshS2 fs0 b).entries := by
    intro p t hmem
    unfold freshS2 archiveFS
    rw [if_pos hdir]
    apply fsMakedirs_mem
    have h1 := fsMakedirs_mem fs0 GENERATED_OLD_DIR _ hmem
    have h2 := fsReplace_mem _ (project_dir b) (archiveTarget fs0 b) _ h1
    dsimp only at h2
    rw [movePath_project_child] at h2
    exact h2
  have hgone : ∀ p : Str,
      (freshS2 fs0 b).existsPath (ospJoin (project_dir b) p) = false := by
    intro p
    unfold freshS2 archiveFS
    rw [if_pos hdir]
    apply fsMakedirs_existsPath_false
    · exact fsReplace_existsPath_child_false _ b _ p hold
    · exact project_dir_ne_child b p
  have holdne : ∀ p x : Str,
      archiveTarget fs0 b ++ '/' :: p ≠ ospJoin (project_dir b) x := by
    intro p x
    obtain ⟨y, hy⟩ := hold
    rw [hy]
    exact old_path_ne_child b x p y
  have hpersist : ∀ (p : Str) (t : Nat),
      (archiveTarget fs0 b ++ '/' :: p, t) ∈ (freshS2 fs0 b).entries →
      (archiveTarget fs0 b ++ '/' :: p, t) ∈ (freshS6 fs0 b q).entries := by
    intro p t hmem
    unfold freshS6 freshS5 freshS4 freshS3
    apply fsWrite_mem_of_ne _ _ _ _ ?_ (holdne p _)
    apply fsWrite_mem_of_ne _ _ _ _ ?_ (holdne p _)
    apply fsWrite_mem_of_ne _ _ _ _ ?_ (holdne p _)
    exact fsWrite_mem_of_ne _ _ _ _ hmem (holdne p _)
  have hjks2 := harch2 (b ++ ".jks".toList) t1 hjks
  have hpem2 := harch2 (b ++ ".pem".toList) t2 hpem
  have hinfo2 := harch2 "info.txt".toList t3 hinfo
  have huser2 := harch2 "user.txt".toList t4 huser
  have hnjp : (b ++ ".jks".toList : Str) ≠ b ++ ".pem".toList := by
    intro h
    have := List.append_cancel_left h
    exact absurd this (by decide)
  have hnji : (b ++ ".jks".toList : Str) ≠ "info.txt".toList :=
    append_suffix_ne b _ _ (by decide) (by decide)
  have hnju : (b ++ ".jks".toList : Str) ≠ "user.txt".toList :=
    append_suffix_ne b _ _ (by decide) (by decide)
  have hnpi : (b ++ ".pem".toList : Str) ≠ "info.txt".toList :=
    append_suffix_ne b _ _ (by decide) (by decide)
  have hnpu : (b ++ ".pem".toList : Str) ≠ "user.txt".toList :=
    append_suffix_ne b _ _ (by decide) (by decide)
  have hjks6 : (jks_path b, q.tJks) ∈ (freshS6 fs0 b q).entries := by
    unfold freshS6 freshS5 freshS4
    apply fsWrite_mem_of_ne _ _ _ _ ?_ (ospJoin_ne_of_ne _ _ _ hnju)
    apply fsWrite_mem_of_ne _ _ _ _ ?_ (ospJoin_ne_of_ne _ _ _ hnji)
    apply fsWrite_mem_of_ne _ _ _ _ ?_ (ospJoin_ne_of_ne _ _ _ hnjp)
    exact fsWrite_mem_self _ _ _
  have hpem6 : (pem_path b, q.tPem) ∈ (freshS6 fs0 b q).entries := by
    unfold freshS6 freshS5
    apply fsWrite_mem_of_ne _ _ _ _ ?_ (ospJoin_ne_of_ne _ _ _ hnpu)
    apply fsWrite_mem_of_ne _ _ _ _ ?_ (ospJoin_ne_of_ne _ _ _ hnpi)
    exact fsWrite_mem_self _ _ _
  have hinfo6 : (info_path b, q.tInfo) ∈ (freshS6 fs0 b q).entries := by
    unfold freshS6
    apply fsWrite_mem_of_ne _ _ _ _ ?_ (ospJoin_ne_of_ne _ _ _ (by decide))
    exact fsWrite_mem_self _ _ _
  have huser6 : (user_path b, q.tUser) ∈ (freshS6 fs0 b q).entries :=
    fsWrite_mem_self _ _ _
  have htr : processFreshStates fs0 pkg q =
      [fs0, fs0, freshS2 fs0 b, freshS3 fs0 b q, freshS4 fs0 b q,
       freshS5 fs0 b q, freshS6 fs0 b q] := by
    have hs1 : fsMakedirs fs0 (project_dir b) = fs0 := by
      unfold fsMakedirs; rw [if_pos hdir]
    have hcnd : (fs0.existsPath (jks_path b) || fs0.existsPath (pem_path b)) = true := by
      have h1 := existsPath_of_mem fs0 _ hjks
      dsimp only at h1
      rw [h1, Bool.true_or]
    simp only [processFreshStates, ← hb, hs1, hcnd, hgen, hexp]
    simp only [freshS6, freshS5, freshS4, freshS3, freshS2]
    simp
  refine ⟨htr, ⟨hjks2, hpem2, hinfo2, huser2⟩,
    ⟨hgone (b ++ ".jks".toList), hgone (b ++ ".pem".toList)⟩,
    ⟨hpersist _ _ hjks2, hpersist _ _ hpem2, hpersist _ _ hinfo2,
     hpersist _ _ huser2⟩,
    ?_, ?_, ?_, ?_⟩
  · exact existsPath_of_mem _ _ hjks6
  · exact existsPath_of_mem _ _ hpem6
  · exact existsPath_of_mem _ _ hinfo6
  · exact existsPath_of_mem _ _ huser6

/-- Witness for `process_fresh_archival`: a concrete complete project is
archived before the new keystore is written and the run ends complete. -/
theorem process_fresh_archival_witness :
    ((archiveTarget ⟨[("generated/app".toList, 0), ("generated/app/app.jks".toList, 11),
        ("generated/app/app.pem".toList, 12), ("generated/app/info.txt".toList, 13),
        ("generated/app/user.txt".toList, 14)]⟩ (sanitize_name "app".toList) ++
      '/' :: (sanitize_name "app".toList ++ ".jks".toList), 11) ∈
        (freshS2 ⟨[("generated/app".toList, 0), ("generated/app/app.jks".toList, 11),
          ("generated/app/app.pem".toList, 12), ("generated/app/info.txt".toList, 13),
          ("generated/app/user.txt".toList, 14)]⟩ (sanitize_name "app".toList)).entries) ∧
    ((freshS2 ⟨[("generated/app".toList, 0), ("generated/app/app.jks".toList, 11),
        ("generated/app/app.pem".toList, 12), ("generated/app/info.txt".toList, 13),
        ("generated/app/user.txt".toList, 14)]⟩ (sanitize_name "app".toList)).existsPath
      (jks_path (sanitize_name "app".toList)) = false) ∧
    ((freshS6 ⟨[("generated/app".toList, 0), ("generated/app/app.jks".toList, 11),
        ("generated/app/app.pem".toList, 12), ("generated/app/info.txt".toList, 13),
        ("generated/app/user.txt".toList, 14)]⟩ (sanitize_name "app".toList)
        ⟨true, true, 21, 22, 23, 24⟩).existsPath
      (jks_path (sanitize_name "app".toList)) = true) :=
  have H := process_fresh_archival
    ⟨[("generated/app".toList, 0), ("generated/app/app.jks".toList, 11),
      ("generated/app/app.pem".toList, 12), ("generated/app/info.txt".toList, 13),
      ("generated/app/user.txt".toList, 14)]⟩ "app".toList
    ⟨true, true, 21, 22, 23, 24⟩ 11 12 13 14 rfl rfl
    (by decide) (by decide) (by decide) (by decide) (by decide)
  ⟨H.2.1.1, H.2.2.1.1, H.2.2.2.2.1⟩

/-- C2, counterexample to the claim as stated: running the fresh path on a
clean filesystem traverses states where the project directory exists but
the artifact set is incomplete (it is created empty before generation). -/
theorem process_partial_state_counterexample :
    ¬ (∀ s ∈ processFreshStates ⟨[]⟩ "app".toList ⟨true, true, 1, 2, 3, 4⟩,
        projInvariant s (sanitize_name "app".toList) = true) := by
  decide

/-! ## C7: missing `Owner:` line degrades to an empty identity -/

theorem findOwnerLine_none (lines : List Str)
    (h : ∀ line ∈ lines, ("Owner:".toList).isPrefixOf (pyStrip line) = false) :
    findOwnerLine lines = none := by
  induction lines with
  | nil => rfl
  | cons line rest ih =>
      rw [findOwnerLine, if_neg (by
        rw [h line (List.mem_cons_self line rest)]
        exact Bool.false_ne_true)]
      exact ih (fun l hl => h l (List.mem_cons_of_mem line hl))

theorem read_dname_none_of_no_owner (stdout : Str)
    (h : ∀ line ∈ pySplitlines stdout,
      ("Owner:".toList).isPrefixOf (pyStrip line) = false) :
    read_dname_from_stdout stdout = none := by
  unfold read_dname_from_stdout
  rw [findOwnerLine_none _ h]

/-- C7: when the verbose-listing stdout has no line whose stripped form
begins with `Owner:`, the identity readback is `None` (not an exception),
the upload pipeline still delivers the artifacts, and the persisted and
delivered summary is `_format_info` of the all-empty identity — header
plus seven labelled lines each showing `-`. -/
theorem no_owner_line_degrades (fs0 : FS) (fr : FileRequest) (q : GenParams)
    (stdout : Str) (hexp : q.exportOk = true)
    (h : ∀ line ∈ pySplitlines stdout,
      ("Owner:".toList).isPrefixOf (pyStrip line) = false) :
    read_dname_from_stdout stdout = none ∧
    (processUpload fs0 fr q true stdout).delivered = true ∧
    (processUpload fs0 fr q true stdout).info =
      some (format_info none (pyOrS fr.aliasName "key0".toList)
        (pyOrS fr.password "1234567890".toList)) ∧
    format_info none (pyOrS fr.aliasName "key0".toList)
        (pyOrS fr.password "1234567890".toList) =
      infoHeader ++ '\n' :: c9ClaimedText emptyDName
        (pyOrS fr.aliasName "key0".toList)
        (pyOrS fr.password "1234567890".toList) ∧
    valOrDash emptyDName.first_name = ['-'] := by
  have hnone := read_dname_none_of_no_owner stdout h
  refine ⟨hnone, ?_, ?_, rfl, rfl⟩
  · simp only [processUpload, hexp]
    simp
  · simp only [processUpload, hexp]
    simp [hnone]

/-- Witness for `no_owner_line_degrades`: a listing output without any
`Owner:` line, on a concrete upload request. -/
theorem no_owner_line_degrades_witness :
    read_dname_from_stdout "Keystore type: PKCS12\nYour keystore contains 1 entry".toList = none ∧
    (processUpload ⟨[]⟩ ⟨"fid".toList, "cert.jks".toList, some "mykey".toList,
        some "secret".toList⟩ ⟨true, true, 1, 2, 3, 4⟩ true
        "Keystore type: PKCS12\nYour keystore contains 1 entry".toList).delivered = true ∧
    (processUpload ⟨[]⟩ ⟨"fid".toList, "cert.jks".toList, some "mykey".toList,
        some "secret".toList⟩ ⟨true, true, 1, 2, 3, 4⟩ true
        "Keystore type: PKCS12\nYour keystore contains 1 entry".toList).info =
      some (format_info none
        (pyOrS (some "mykey".toList) "key0".toList)
        (pyOrS (some "secret".toList) "1234567890".toList)) ∧
    format_info none (pyOrS (some "mykey".toList) "key0".toList)
        (pyOrS (some "secret".toList) "1234567890".toList) =
      infoHeader ++ '\n' :: c9ClaimedText emptyDName
        (pyOrS (some "mykey".toList) "key0".toList)
        (pyOrS (some "secret".toList) "1234567890".toList) ∧
    valOrDash emptyDName.first_name = ['-'] :=
  no_owner_line_degrades ⟨[]⟩
    ⟨"fid".toList, "cert.jks".toList, some "mykey".toList, some "secret".toList⟩
    ⟨true, true, 1, 2, 3, 4⟩
    "Keystore type: PKCS12\nYour keystore contains 1 entry".toList rfl (by decide)
